import Mathlib

set_option maxHeartbeats 1000000
set_option synthInstance.maxHeartbeats 400000

/-!
Verification of the kukkii cookie codec.

The TypeScript sources are shallowly embedded here:
* JS strings are modeled as `List Char` (sequences of Unicode scalar values);
* machine integers appearing in the sources are small character codes and
  byte values, modeled as `Nat`;
* JS `number` (only used for `maxAge`) is modeled as `ℚ`, which carries the
  `Math.floor` and `>= 0` logic exactly on all finite non-NaN inputs;
* functions that can throw return `Option`/`Except`, with `none`/`.error`
  standing for the thrown exception;
* the external Web Crypto provider (PBKDF2, AES-256-CBC, HMAC-SHA256) is a
  structure of pure byte-level functions, and every fresh CSPRNG draw made by
  the sources is an explicit argument, reflecting one draw per call.
-/

namespace Kukkii

/-- JS strings, modeled as lists of Unicode scalar values. -/
abbrev Str := List Char

/-! ## ECMAScript string primitives used by the sources -/

/-- The whitespace characters recognized by `String.prototype.trim`
(tab, LF, VT, FF, CR, space, NBSP, BOM; exotic Unicode `Zs` separators are
omitted since no cookie-relevant character class contains them). -/
def wsChars : Str := ['\t', '\n', '\x0b', '\x0c', '\r', ' ', '\u00A0', '\uFEFF']

def jsWhitespace (c : Char) : Bool := wsChars.contains c

/-- `String.prototype.trim`. -/
def trim (s : Str) : Str :=
  ((s.dropWhile jsWhitespace).reverse.dropWhile jsWhitespace).reverse

/-- `String.prototype.split` with a one-character separator: always returns a
nonempty list, and the empty string yields `[[]]`. -/
def splitOnChar (sep : Char) : Str → List Str
  | [] => [[]]
  | c :: rest =>
    if c = sep then [] :: splitOnChar sep rest
    else
      match splitOnChar sep rest with
      | [] => [[c]]
      | s :: ss => (c :: s) :: ss

/-- `String.prototype.indexOf` for a one-character needle, as an `Option`
(`none` is JS's `-1`). -/
def indexOfChar : Str → Char → Option Nat
  | [], _ => none
  | c :: rest, t => if c = t then some 0 else (indexOfChar rest t).map (· + 1)

def lastIndexOfCharAux : Str → Char → Nat → Int → Int
  | [], _, _, best => best
  | c :: rest, t, i, best =>
    lastIndexOfCharAux rest t (i + 1) (if c = t then (i : Int) else best)

/-- `String.prototype.lastIndexOf` for a one-character needle; `-1` when the
character does not occur, as in JS. -/
def lastIndexOfChar (s : Str) (t : Char) : Int :=
  lastIndexOfCharAux s t 0 (-1)

/-- `String.prototype.charCodeAt`; out-of-range access gives `NaN` in JS,
which the bitwise operators of `fixedTimeComparison` coerce to `0`. -/
def charCodeAt (s : Str) (i : Nat) : Nat :=
  ((s.get? i).map Char.toNat).getD 0

/-! ## Cookie character classes (from the source regexes) -/

/-- One character of `/^[\w!#$%&'*.^`|~+-]+$/`, the RFC 6265 token class used
for cookie names. -/
def validNameChar (c : Char) : Bool :=
  (48 ≤ c.toNat && c.toNat ≤ 57) || (65 ≤ c.toNat && c.toNat ≤ 90) ||
  (97 ≤ c.toNat && c.toNat ≤ 122) ||
  c.toNat == 95 || c.toNat == 33 || c.toNat == 35 || c.toNat == 36 ||
  c.toNat == 37 || c.toNat == 38 || c.toNat == 39 || c.toNat == 42 ||
  c.toNat == 46 || c.toNat == 94 || c.toNat == 96 || c.toNat == 124 ||
  c.toNat == 126 || c.toNat == 43 || c.toNat == 45

/-- `validCookieNameRegEx.test`: nonempty and every character in the class. -/
def validName (s : Str) : Bool := !s.isEmpty && s.all validNameChar

/-- One character of `/^[ !#-:<-[\]-~]*$/`: ASCII 0x20–0x7E except `"` (0x22),
`;` (0x3B) and `\` (0x5C). -/
def validValueChar (c : Char) : Bool :=
  (32 ≤ c.toNat && c.toNat ≤ 126) && c.toNat != 34 && c.toNat != 59 && c.toNat != 92

/-- `validCookieValueRegEx.test` (the class is starred, so empty passes). -/
def validValue (s : Str) : Bool := s.all validValueChar

/-! ## String–object mappings (JS plain objects used as dictionaries) -/

/-- A JS object used as a string-keyed dictionary, in insertion order. -/
abbrev Entries (α : Type) := List (Str × α)

def lookupE {α : Type} : Entries α → Str → Option α
  | [], _ => none
  | (k, v) :: rest, key => if k = key then some v else lookupE rest key

/-- `obj[key] = v`: overwrite in place if present, else append. -/
def insertE {α : Type} : Entries α → Str → α → Entries α
  | [], key, v => [(key, v)]
  | (k, w) :: rest, key, v =>
    if k = key then (k, v) :: rest else (k, w) :: insertE rest key v

/-- One step of the result-building loops of `parseSigned`/`parseSealed`:
`f` maps a parsed value to `none` (the loop's `continue`) or to the entry
assigned into the result object. -/
def outcomeStep {α β : Type} (f : α → Option β) (acc : Entries β)
    (kv : Str × α) : Entries β :=
  match f kv.2 with
  | some r => insertE acc kv.1 r
  | Option.none => acc

/-! ## UTF-8 and percent encoding -/

/-- UTF-8 encoding of one Unicode scalar value, by its code point. -/
def utf8EncodeNat (n : Nat) : List Nat :=
  if n < 128 then [n]
  else if n < 2048 then [192 + n / 64, 128 + n % 64]
  else if n < 65536 then [224 + n / 4096, 128 + n / 64 % 64, 128 + n % 64]
  else [240 + n / 262144, 128 + n / 4096 % 64, 128 + n / 64 % 64, 128 + n % 64]

/-- `TextEncoder.encode` / `stringToBuffer`: the UTF-8 bytes of a string. -/
def utf8Encode (s : Str) : List Nat := s.flatMap (fun c => utf8EncodeNat c.toNat)

/-- One token of the `decodeURIComponent` scan: a character that was not
escaped, or the byte of one `%XX` escape. -/
inductive PctTok
  | raw (c : Char)
  | byte (b : Nat)
deriving DecidableEq

/-- UTF-8 assembly over a token stream, as a byte-at-a-time state machine:
`need` is the number of continuation bytes still expected, `acc` the partial
code point, `lo` the smallest code point the current sequence may encode
(shortest-form check). Unescaped characters pass through only between
sequences; `none` models a decoding error. This is the ECMAScript `Decode`
algorithm's UTF-8 handling. -/
def utf8Run : Nat → Nat → Nat → List PctTok → Option Str
  | 0, _, _, [] => some []
  | 0, _, _, .raw c :: rest => (utf8Run 0 0 0 rest).map (c :: ·)
  | 0, _, _, .byte b :: rest =>
    if b < 128 then (utf8Run 0 0 0 rest).map (Char.ofNat b :: ·)
    else if b < 194 then none
    else if b ≤ 223 then utf8Run 1 (b - 192) 128 rest
    else if b ≤ 239 then utf8Run 2 (b - 224) 2048 rest
    else if b ≤ 244 then utf8Run 3 (b - 240) 65536 rest
    else none
  | need + 1, acc, lo, .byte b :: rest =>
    if 128 ≤ b ∧ b ≤ 191 then
      if need = 0 then
        if lo ≤ acc * 64 + (b - 128) ∧
            ¬(55296 ≤ acc * 64 + (b - 128) ∧ acc * 64 + (b - 128) ≤ 57343) ∧
            acc * 64 + (b - 128) ≤ 1114111 then
          (utf8Run 0 0 0 rest).map (Char.ofNat (acc * 64 + (b - 128)) :: ·)
        else none
      else utf8Run need (acc * 64 + (b - 128)) lo rest
    else none
  | _ + 1, _, _, [] => none
  | _ + 1, _, _, .raw _ :: _ => none

/-- UTF-8 assembly of a full token stream. -/
def utf8FromToks : List PctTok → Option Str := utf8Run 0 0 0

/-- Modelled from the spec: UTF-8 decoding of a byte buffer back into a string
(`bufferToString` in the `iron-webcrypto/utils` module, which is not among the
sources); `none` models a buffer that is not valid UTF-8. -/
def utf8Decode (bs : List Nat) : Option Str := utf8FromToks (bs.map .byte)

def hexCharLower (n : Nat) : Char := Char.ofNat (if n < 10 then 48 + n else 87 + n)

def hexCharUpper (n : Nat) : Char := Char.ofNat (if n < 10 then 48 + n else 55 + n)

/-- The `%XX` escape of one byte (uppercase hex, as `encodeURIComponent` emits). -/
def pctByte (b : Nat) : Str := ['%', hexCharUpper (b / 16 % 16), hexCharUpper (b % 16)]

/-- The characters `encodeURIComponent` leaves unescaped:
alphanumerics and `-_.!~*'()`. -/
def uriUnreserved (c : Char) : Bool :=
  (48 ≤ c.toNat && c.toNat ≤ 57) || (65 ≤ c.toNat && c.toNat ≤ 90) ||
  (97 ≤ c.toNat && c.toNat ≤ 122) ||
  c.toNat == 45 || c.toNat == 95 || c.toNat == 46 || c.toNat == 33 ||
  c.toNat == 126 || c.toNat == 42 || c.toNat == 39 || c.toNat == 40 || c.toNat == 41

/-- The encoding of one character under `encodeURIComponent`: kept verbatim if
unreserved, otherwise each UTF-8 byte becomes a `%XX` escape. -/
def encURIChar (c : Char) : Str :=
  if uriUnreserved c then [c] else (utf8EncodeNat c.toNat).flatMap pctByte

/-- ECMAScript `encodeURIComponent`. -/
def encodeURIComponent (s : Str) : Str := s.flatMap encURIChar

/-- Hexadecimal digit value of a character (both cases), `none` otherwise. -/
def hexVal (c : Char) : Option Nat :=
  let n := c.toNat
  if 48 ≤ n ∧ n ≤ 57 then some (n - 48)
  else if 65 ≤ n ∧ n ≤ 70 then some (n - 55)
  else if 97 ≤ n ∧ n ≤ 102 then some (n - 87)
  else none

/-- The left-to-right `%XX` scan of `decodeURIComponent`; `none` models the
`URIError` thrown on a malformed percent escape. -/
def pctTokens : Str → Option (List PctTok)
  | [] => some []
  | c :: rest =>
    if c = '%' then
      match rest with
      | h1 :: h2 :: rest2 =>
        match hexVal h1, hexVal h2 with
        | some x, some y => (pctTokens rest2).map (.byte (16 * x + y) :: ·)
        | _, _ => none
      | _ => none
    else (pctTokens rest).map (.raw c :: ·)

/-- ECMAScript `decodeURIComponent`: scan the `%XX` escapes, then decode the
escape bytes as UTF-8 (unescaped characters pass through); `none` models the
thrown `URIError`. -/
def decodeURIComponent (s : Str) : Option Str :=
  (pctTokens s).bind utf8FromToks

/-! ## Base64 and base64url -/

/-- Base64url alphabet character for a sextet. -/
def b64urlChar (n : Nat) : Char :=
  let i := n % 64
  if i < 26 then Char.ofNat (65 + i)
  else if i < 52 then Char.ofNat (97 + (i - 26))
  else if i < 62 then Char.ofNat (48 + (i - 52))
  else if i = 62 then '-' else '_'

def b64urlVal (c : Char) : Option Nat :=
  let n := c.toNat
  if 65 ≤ n ∧ n ≤ 90 then some (n - 65)
  else if 97 ≤ n ∧ n ≤ 122 then some (n - 97 + 26)
  else if 48 ≤ n ∧ n ≤ 57 then some (n - 48 + 52)
  else if n = 45 then some 62
  else if n = 95 then some 63
  else none

/-- Standard base64 alphabet character for a sextet. -/
def b64StdChar (n : Nat) : Char :=
  let i := n % 64
  if i < 26 then Char.ofNat (65 + i)
  else if i < 52 then Char.ofNat (97 + (i - 26))
  else if i < 62 then Char.ofNat (48 + (i - 52))
  else if i = 62 then '+' else '/'

def b64StdVal (c : Char) : Option Nat :=
  let n := c.toNat
  if 65 ≤ n ∧ n ≤ 90 then some (n - 65)
  else if 97 ≤ n ∧ n ≤ 122 then some (n - 97 + 26)
  else if 48 ≤ n ∧ n ≤ 57 then some (n - 48 + 52)
  else if n = 43 then some 62
  else if n = 47 then some 63
  else none

/-- Modelled from the spec: padding-free base64url encoding (`base64urlEncode`
in the `iron-webcrypto/utils` module, which is not among the sources). The
arithmetic on sextets mirrors the usual bit shifts. -/
def base64urlEncode : List Nat → Str
  | [] => []
  | [b1] => [b64urlChar (b1 / 4), b64urlChar (b1 % 4 * 16)]
  | [b1, b2] =>
    [b64urlChar (b1 / 4), b64urlChar (b1 % 4 * 16 + b2 / 16), b64urlChar (b2 % 16 * 4)]
  | b1 :: b2 :: b3 :: rest =>
    b64urlChar (b1 / 4) :: b64urlChar (b1 % 4 * 16 + b2 / 16) ::
      b64urlChar (b2 % 16 * 4 + b3 / 64) :: b64urlChar (b3 % 64) :: base64urlEncode rest

/-- Generic base64 decoding over an alphabet-value function; `none` for an
invalid character or an impossible length (≡ 1 mod 4). -/
def b64DecodeWith (val : Char → Option Nat) : Str → Option (List Nat)
  | [] => some []
  | [c1, c2] => do
    let v1 ← val c1
    let v2 ← val c2
    pure [v1 * 4 + v2 / 16]
  | [c1, c2, c3] => do
    let v1 ← val c1
    let v2 ← val c2
    let v3 ← val c3
    pure [v1 * 4 + v2 / 16, v2 % 16 * 16 + v3 / 4]
  | c1 :: c2 :: c3 :: c4 :: rest => do
    let v1 ← val c1
    let v2 ← val c2
    let v3 ← val c3
    let v4 ← val c4
    let bs ← b64DecodeWith val rest
    pure ((v1 * 4 + v2 / 16) :: (v2 % 16 * 16 + v3 / 4) :: (v3 % 4 * 64 + v4) :: bs)
  | _ => none

/-- Modelled from the spec: base64url decoding (`base64urlDecode` in the
`iron-webcrypto/utils` module, which is not among the sources); `none` models
a thrown decoding error. -/
def base64urlDecode : Str → Option (List Nat) := b64DecodeWith b64urlVal

/-- `btoa(String.fromCharCode(...bytes))`: standard base64 with padding. -/
def base64StdEncode : List Nat → Str
  | [] => []
  | [b1] => [b64StdChar (b1 / 4), b64StdChar (b1 % 4 * 16), '=', '=']
  | [b1, b2] =>
    [b64StdChar (b1 / 4), b64StdChar (b1 % 4 * 16 + b2 / 16), b64StdChar (b2 % 16 * 4), '=']
  | b1 :: b2 :: b3 :: rest =>
    b64StdChar (b1 / 4) :: b64StdChar (b1 % 4 * 16 + b2 / 16) ::
      b64StdChar (b2 % 16 * 4 + b3 / 64) :: b64StdChar (b3 % 64) :: base64StdEncode rest

/-- The platform `atob` (forgiving base64): strip ASCII whitespace, strip the
optional trailing `=` padding, then decode; `none` models the thrown
`InvalidCharacterError`. -/
def atob (s : Str) : Option (List Nat) :=
  let t := s.filter (fun c =>
    !(c == ' ' || c == '\t' || c == '\n' || c == '\x0c' || c == '\r'))
  let t2 :=
    if t.length % 4 = 0 then
      match t.reverse with
      | '=' :: '=' :: r => r.reverse
      | '=' :: r => r.reverse
      | _ => t
    else t
  if t2.length % 4 = 1 then none else b64DecodeWith b64StdVal t2

/-! ## Decimal and hexadecimal rendering -/

def decDigitsAux : Nat → Nat → Str → Str
  | 0, _, acc => acc
  | fuel + 1, n, acc =>
    if n = 0 then acc else decDigitsAux fuel (n / 10) (Char.ofNat (48 + n % 10) :: acc)

/-- Decimal rendering of a natural number, as JS `toString` renders
non-negative integers. -/
def natToDec (n : Nat) : Str := if n = 0 then ['0'] else decDigitsAux (n + 1) n []

def hexDigitsAux : Nat → Nat → Str → Str
  | 0, _, acc => acc
  | fuel + 1, n, acc =>
    if n = 0 then acc else hexDigitsAux fuel (n / 16) (hexCharLower (n % 16) :: acc)

/-- `x.toString(16)` for a natural number. -/
def natToHex (n : Nat) : Str := if n = 0 then ['0'] else hexDigitsAux (n + 1) n []

/-- `x.toString(16).padStart(2, "0")`. -/
def byteToHexPadded (b : Nat) : Str :=
  let h := natToHex b
  if h.length < 2 then '0' :: h else h

/-- The salt rendering in `generateKey`:
`[...bytes].map((x) => x.toString(16).padStart(2, "0")).join("")`. -/
def bytesToHex (l : List Nat) : Str := (l.map byteToHexPadded).flatten

/-! ## Cookie options and serialization -/

/-- The `sameSite` union type. -/
inductive SameSiteOpt
  | strict
  | lax
  | none
deriving DecidableEq

def SameSiteOpt.render : SameSiteOpt → Str
  | .strict => ['S', 't', 'r', 'i', 'c', 't']
  | .lax => ['L', 'a', 'x']
  | .none => ['N', 'o', 'n', 'e']

/-- A JS `Date`, abstracted to the `toUTCString` rendering that `_serialize`
reads off it (the `Date` object is an external collaborator). -/
structure JSDate where
  utcString : Str
deriving DecidableEq

/-- `CookieOptions`; absent fields are `none`. `maxAge` is a JS number,
modeled as `ℚ`. -/
structure CookieOptions where
  domain : Option Str := Option.none
  expires : Option JSDate := Option.none
  httpOnly : Option Bool := Option.none
  maxAge : Option ℚ := Option.none
  path : Option Str := Option.none
  secure : Option Bool := Option.none
  sameSite : Option SameSiteOpt := Option.none
  partitioned : Option Bool := Option.none

/-- JS truthiness of `string | undefined`: `undefined` and `""` are falsy. -/
def truthyStr : Option Str → Option Str
  | Option.none => Option.none
  | some s => if s.isEmpty then Option.none else some s

/-- JS truthiness of `boolean | undefined`. -/
def truthyBool (b : Option Bool) : Bool := b.getD false

def sMaxAge : Str := [';', ' ', 'M', 'a', 'x', '-', 'A', 'g', 'e', '=']

def sDomain : Str := [';', ' ', 'D', 'o', 'm', 'a', 'i', 'n', '=']

def sPath : Str := [';', ' ', 'P', 'a', 't', 'h', '=']

def sExpires : Str := [';', ' ', 'E', 'x', 'p', 'i', 'r', 'e', 's', '=']

def sHttpOnly : Str := [';', ' ', 'H', 't', 't', 'p', 'O', 'n', 'l', 'y']

def sSecure : Str := [';', ' ', 'S', 'e', 'c', 'u', 'r', 'e']

def sSameSite : Str := [';', ' ', 'S', 'a', 'm', 'e', 'S', 'i', 't', 'e', '=']

def sPartitioned : Str := [';', ' ', 'P', 'a', 'r', 't', 'i', 't', 'i', 'o', 'n', 'e', 'd']

/-- `_serialize` from the source: `name=value` followed by the attribute
segments, appended in the source's fixed order under the source's truthiness
conditions. -/
def _serialize (name value : Str) (opt : CookieOptions) : Str :=
  name ++ ('=' :: value)
  ++ (match opt.maxAge with
      | some m => if 0 ≤ m then sMaxAge ++ natToDec (Int.floor m).toNat else []
      | Option.none => [])
  ++ (match truthyStr opt.domain with
      | some d => sDomain ++ d
      | Option.none => [])
  ++ (match truthyStr opt.path with
      | some p => sPath ++ p
      | Option.none => [])
  ++ (match opt.expires with
      | some d => sExpires ++ d.utcString
      | Option.none => [])
  ++ (if truthyBool opt.httpOnly then sHttpOnly else [])
  ++ (if truthyBool opt.secure then sSecure else [])
  ++ (match opt.sameSite with
      | some ss => sSameSite ++ ss.render
      | Option.none => [])
  ++ (if truthyBool opt.partitioned then sPartitioned else [])

/-- `serialize`: percent-encode the value, then `_serialize`. -/
def serialize (name value : Str) (opt : CookieOptions) : Str :=
  _serialize name (encodeURIComponent value) opt

/-! ## parse -/

/-- The name-filter test of `parse`: `name && name !== cookieName` (note the
JS truthiness: an empty-string filter never rejects). -/
def filterTest (filter : Option Str) (cookieName : Str) : Bool :=
  match filter with
  | some f => !f.isEmpty && f ≠ cookieName
  | Option.none => false

/-- One step of `parse`'s reduce over the `;`-separated pairs. `none` models
the `URIError` that the unguarded `decodeURIComponent` call can throw. -/
def parsePair (filter : Option Str) (acc : Entries Str) (pairStr : Str) : Option (Entries Str) :=
  let p := trim pairStr
  match indexOfChar p '=' with
  | Option.none => some acc
  | some i =>
    let cookieName := trim (p.take i)
    if filterTest filter cookieName || !validName cookieName then
      some acc
    else
      let v0 := trim (p.drop (i + 1))
      let v :=
        if v0.head? == some '"' && v0.getLast? == some '"' then (v0.drop 1).dropLast
        else v0
      if validValue v then (decodeURIComponent v).map (fun w => insertE acc cookieName w)
      else some acc

/-- `parse(cookie, name?)` from the source. -/
def parse (cookie : Str) (filter : Option Str) : Option (Entries Str) :=
  (splitOnChar ';' (trim cookie)).foldlM (parsePair filter) []

/-! ## The crypto provider and the signature engine -/

/-- The external Web Crypto provider, abstracted as pure byte-level functions:
`pbkdf2 password salt iterations keyLength`, AES-256-CBC encryption and
decryption under `(key, iv)`, and HMAC-SHA256 under a raw key. Decryption can
fail (bad padding), so it is `Option`-valued. -/
structure CryptoProvider where
  pbkdf2 : Str → Str → Nat → Nat → List Nat
  aesCbcEncrypt : List Nat → List Nat → List Nat → List Nat
  aesCbcDecrypt : List Nat → List Nat → List Nat → Option (List Nat)
  hmacSha256 : List Nat → List Nat → List Nat

/-- `makeSignature`: HMAC-SHA256 of the value under the secret's UTF-8 bytes,
then `btoa` of the 32-byte digest. -/
def makeSignature (P : CryptoProvider) (value secret : Str) : Str :=
  base64StdEncode (P.hmacSha256 (utf8Encode secret) (utf8Encode value))

/-- `verifySignature`: `atob` the candidate signature and verify it against
the recomputed HMAC; the `catch` maps any decoding error to `false`. -/
def verifySignature (P : CryptoProvider) (base64Signature value : Str)
    (secretKey : List Nat) : Bool :=
  match atob base64Signature with
  | Option.none => false
  | some sigBytes => decide (sigBytes = P.hmacSha256 secretKey (utf8Encode value))

/-! ## The iron seal engine -/

inductive IronAlg
  | aes256cbc
  | sha256
deriving DecidableEq

/-- `algorithms[...].keyBits`. -/
def IronAlg.keyBits : IronAlg → Nat
  | _ => 256

/-- `algorithms[...].ivBits`; only AES-256-CBC has an IV. -/
def IronAlg.ivBits : IronAlg → Option Nat
  | .aes256cbc => some 128
  | .sha256 => Option.none

/-- `GenerateKeyOptions` as used by `seal`/`unseal` (fixed algorithm sets,
optionally overridden with a concrete salt and IV). -/
structure IronOpts where
  algorithm : IronAlg
  iterations : Nat
  saltBits : Nat
  salt : Option Str := Option.none
  iv : Option (List Nat) := Option.none

/-- `encryption` from the source. -/
def encryptionOpts : IronOpts := { algorithm := .aes256cbc, iterations := 1, saltBits := 256 }

/-- `integrity` from the source. -/
def integrityOpts : IronOpts := { algorithm := .sha256, iterations := 1, saltBits := 256 }

/-- The `Key` record produced by `generateKey`. -/
structure IronKey where
  key : List Nat
  salt : Str
  iv : List Nat

/-- `generateKey`. The fresh CSPRNG draws the source takes (`randomBits` for
the salt and the IV) are explicit arguments; a call that supplies `salt`
and/or `iv` never reads the corresponding argument. The
missing-`salt`/`saltBits` error branch is unreachable in the embedded calls,
which all pass `saltBits = 256`. -/
def generateKey (P : CryptoProvider) (rndSalt rndIv : List Nat) (password : Str)
    (o : IronOpts) : IronKey :=
  let salt :=
    match o.salt with
    | some s => if s.isEmpty then bytesToHex rndSalt else s
    | Option.none => bytesToHex rndSalt
  let derived := P.pbkdf2 password salt o.iterations (o.algorithm.keyBits / 8)
  let iv :=
    match o.iv with
    | some iv => iv
    | Option.none =>
      match o.algorithm.ivBits with
      | some _ => rndIv
      | Option.none => []
  { key := derived, salt := salt, iv := iv }

/-- `encrypt`: derive a key, then AES-encrypt the UTF-8 bytes of the data. -/
def ironEncrypt (P : CryptoProvider) (rndSalt rndIv : List Nat) (password : Str)
    (o : IronOpts) (data : Str) : List Nat × IronKey :=
  let k := generateKey P rndSalt rndIv password o
  (P.aesCbcEncrypt k.key k.iv (utf8Encode data), k)

/-- `decrypt`: derive a key, AES-decrypt, and read the bytes back as a string
(`bufferToString`); its callers always supply `salt` and `iv`, so the
random-draw arguments of `generateKey` are never read here. -/
def ironDecrypt (P : CryptoProvider) (password : Str) (o : IronOpts)
    (data : List Nat) : Option Str :=
  let k := generateKey P [] [] password o
  (P.aesCbcDecrypt k.key k.iv data).bind utf8Decode

/-- `HMacResult`. -/
structure HMacResult where
  digest : Str
  salt : Str

/-- `hmacWithPassword`: derive an HMAC key (same PBKDF2 bytes), sign, and
base64url-encode the digest. -/
def hmacWithPassword (P : CryptoProvider) (rndSalt : List Nat) (password : Str)
    (o : IronOpts) (data : Str) : HMacResult :=
  let k := generateKey P rndSalt [] password o
  { digest := base64urlEncode (P.hmacSha256 k.key (utf8Encode data)), salt := k.salt }

/-- The three fresh CSPRNG draws one `seal` call makes. -/
structure SealRnd where
  encSalt : List Nat
  iv : List Nat
  macSalt : List Nat

/-- `seal` from `iron-webcrypto`. -/
def ironSeal (P : CryptoProvider) (rnd : SealRnd) (value password : Str) : Str :=
  let ek := ironEncrypt P rnd.encSalt rnd.iv password encryptionOpts value
  let encryptedB64 := base64urlEncode ek.1
  let ivB64 := base64urlEncode ek.2.iv
  let macBaseString := ek.2.salt ++ '*' :: ivB64 ++ '*' :: encryptedB64
  let mac := hmacWithPassword P rnd.macSalt password integrityOpts macBaseString
  macBaseString ++ '*' :: mac.salt ++ '*' :: mac.digest

/-- `fixedTimeComparison` from `iron-webcrypto`: length check first, swap `b`
for `a` on length mismatch, then a full xor-accumulate scan with no early
return. The `Nat` bitwise operators agree with JS's int32 operators here since
all operands are below 2^16. -/
def fixedTimeComparison (a b : Str) : Bool :=
  let mismatch0 : Nat := if a.length = b.length then 0 else 1
  let b' := if mismatch0 ≠ 0 then a else b
  decide
    (((List.range a.length).foldl
      (fun acc i => acc ||| (charCodeAt a i ^^^ charCodeAt b' i)) mismatch0) = 0)

/-- The failures `unseal` can throw (the source throws `Error`s with fixed
messages; callers only catch, never inspect). -/
inductive UnsealError
  | wrongComponents
  | badHmac
  | badBase64
  | decryptionFailed
deriving DecidableEq

/-- `unseal` from `iron-webcrypto`: split on `*`, require exactly 5 fields,
recompute and constant-time-compare the HMAC, then decode and decrypt. -/
def ironUnseal (P : CryptoProvider) (sealedStr password : Str) : Except UnsealError Str :=
  match splitOnChar '*' sealedStr with
  | [encryptionSalt, encryptionIv, encryptedB64, hmacSalt, hmac] =>
    let macBaseString := encryptionSalt ++ '*' :: encryptionIv ++ '*' :: encryptedB64
    let mac := hmacWithPassword P [] password
      { integrityOpts with salt := some hmacSalt } macBaseString
    if fixedTimeComparison mac.digest hmac then
      match base64urlDecode encryptionIv with
      | some ivBytes =>
        match base64urlDecode encryptedB64 with
        | some encBytes =>
          match ironDecrypt P password
            { encryptionOpts with salt := some encryptionSalt, iv := some ivBytes } encBytes with
          | some s => .ok s
          | Option.none => .error .decryptionFailed
        | Option.none => .error .badBase64
      | Option.none => .error .badBase64
    else .error .badHmac
  | _ => .error .wrongComponents

/-! ## parseSigned, parseSealed, and the facade -/

/-- `string | false`. -/
inductive MaybeCookie
  | val (s : Str)
  | fls
deriving DecidableEq

/-- The body of `parseSigned`'s loop for one parsed entry: `none` is the
`continue` (entry dropped), `some` is the assignment. -/
def signedOutcome (P : CryptoProvider) (secretKey : List Nat) (value : Str) :
    Option MaybeCookie :=
  let signatureStartPos := lastIndexOfChar value '.'
  if signatureStartPos < 1 then Option.none
  else
    let signedValue := value.take signatureStartPos.toNat
    let signature := value.drop (signatureStartPos.toNat + 1)
    if signature.length ≠ 44 ∨ signature.getLast? ≠ some '=' then Option.none
    else
      some (if verifySignature P signature signedValue secretKey then .val signedValue
        else .fls)

/-- `parseSigned` from the source. -/
def parseSigned (P : CryptoProvider) (cookie secret : Str) (filter : Option Str) :
    Option (Entries MaybeCookie) :=
  (parse cookie filter).map (fun m =>
    m.foldl (outcomeStep (signedOutcome P (utf8Encode secret))) [])

/-- The body of `parseSealed`'s loop for one parsed entry: values without any
`*` are dropped (`continue`); otherwise `unseal`, with `.catch(() => false)`. -/
def sealedOutcome (P : CryptoProvider) (secret value : Str) : Option MaybeCookie :=
  if value.contains '*' then
    some (match ironUnseal P value secret with
      | .ok s => .val s
      | .error _ => .fls)
  else Option.none

/-- `parseSealed` from the source. -/
def parseSealed (P : CryptoProvider) (cookie secret : Str) (filter : Option Str) :
    Option (Entries MaybeCookie) :=
  (parse cookie filter).map (fun m =>
    m.foldl (outcomeStep (sealedOutcome P secret)) [])

/-- `serializeSigned`. -/
def serializeSigned (P : CryptoProvider) (name value secret : Str)
    (opt : CookieOptions) : Str :=
  _serialize name (encodeURIComponent (value ++ '.' :: makeSignature P value secret)) opt

/-- `serializeSealed`. -/
def serializeSealed (P : CryptoProvider) (rnd : SealRnd) (name value secret : Str)
    (opt : CookieOptions) : Str :=
  _serialize name (encodeURIComponent (ironSeal P rnd value secret)) opt

/-- `getCookie(headers, key)`: the header container is abstracted to the
result of `headers.get("Cookie")`. Outer `Option`: the `URIError` `parse` can
throw; inner `Option`: `undefined`. -/
def getCookieKey (header : Option Str) (key : Str) : Option (Option Str) :=
  match truthyStr header with
  | Option.none => some Option.none
  | some c => (parse c (some key)).map (fun m => lookupE m key)

/-- `getCookie(headers)` (no key). -/
def getCookieAll (header : Option Str) : Option (Entries Str) :=
  match truthyStr header with
  | Option.none => some []
  | some c => parse c Option.none

/-- `getSignedCookie(headers, secret, key)`: note the `?? false` and the
`return false` on a falsy header. -/
def getSignedCookieKey (P : CryptoProvider) (header : Option Str) (secret key : Str) :
    Option MaybeCookie :=
  match truthyStr header with
  | Option.none => some .fls
  | some c => (parseSigned P c secret (some key)).map (fun m => (lookupE m key).getD .fls)

/-- `getSignedCookie(headers, secret)` (no key). -/
def getSignedCookieAll (P : CryptoProvider) (header : Option Str) (secret : Str) :
    Option (Entries MaybeCookie) :=
  match truthyStr header with
  | Option.none => some []
  | some c => parseSigned P c secret Option.none

/-- `getSealedCookie(headers, secret, key)`. -/
def getSealedCookieKey (P : CryptoProvider) (header : Option Str) (secret key : Str) :
    Option MaybeCookie :=
  match truthyStr header with
  | Option.none => some .fls
  | some c => (parseSealed P c secret (some key)).map (fun m => (lookupE m key).getD .fls)

/-- `getSealedCookie(headers, secret)` (no key). -/
def getSealedCookieAll (P : CryptoProvider) (header : Option Str) (secret : Str) :
    Option (Entries MaybeCookie) :=
  match truthyStr header with
  | Option.none => some []
  | some c => parseSealed P c secret Option.none

/-- A trivial concrete crypto provider for witnesses: identity "cipher" and a
constant all-zero HMAC digest. -/
def cryptoTriv : CryptoProvider where
  pbkdf2 := fun _ _ _ _ => []
  aesCbcEncrypt := fun _ _ d => d
  aesCbcDecrypt := fun _ _ d => some d
  hmacSha256 := fun _ _ => List.replicate 32 0

/-! ## Lemmas: bitwise accumulation and `fixedTimeComparison` -/

theorem lor_eq_zero_iff (a b : Nat) : a ||| b = 0 ↔ a = 0 ∧ b = 0 := by
  constructor
  · intro h
    refine ⟨Nat.eq_of_testBit_eq fun i => ?_, Nat.eq_of_testBit_eq fun i => ?_⟩
    · have h2 := congrArg (fun n => n.testBit i) h
      simp only [Nat.testBit_lor, Nat.zero_testBit] at h2 ⊢
      exact (Bool.or_eq_false_iff.mp h2).1
    · have h2 := congrArg (fun n => n.testBit i) h
      simp only [Nat.testBit_lor, Nat.zero_testBit] at h2 ⊢
      exact (Bool.or_eq_false_iff.mp h2).2
  · rintro ⟨rfl, rfl⟩
    rfl

theorem foldl_lor_eq_zero (f : Nat → Nat) (l : List Nat) (init : Nat) :
    (l.foldl (fun acc i => acc ||| f i) init = 0) ↔ init = 0 ∧ ∀ i ∈ l, f i = 0 := by
  induction l generalizing init with
  | nil => simp
  | cons x xs ih =>
    simp only [List.foldl_cons, List.mem_cons, ih, lor_eq_zero_iff]
    constructor
    · rintro ⟨⟨h1, h2⟩, h3⟩
      exact ⟨h1, fun i hi => hi.elim (fun he => he ▸ h2) (h3 i)⟩
    · rintro ⟨h1, h2⟩
      exact ⟨⟨h1, h2 x (.inl rfl)⟩, fun i hi => h2 i (.inr hi)⟩

theorem Char.toNat_inj {a b : Char} (h : a.toNat = b.toNat) : a = b := by
  have h2 := congrArg Char.ofNat h
  rwa [Char.ofNat_toNat, Char.ofNat_toNat] at h2

theorem charCodeAt_of_lt {s : Str} {i : Nat} (h : i < s.length) :
    charCodeAt s i = (s.get ⟨i, h⟩).toNat := by
  simp [charCodeAt, List.getElem?_eq_getElem h, List.get_eq_getElem]

/-- `fixedTimeComparison` is a correct equality test. -/
theorem fixedTimeComparison_eq_iff (a b : Str) :
    fixedTimeComparison a b = true ↔ a = b := by
  by_cases hlen : a.length = b.length
  · have hb : fixedTimeComparison a b =
        decide ((List.range a.length).foldl
          (fun acc i => acc ||| (charCodeAt a i ^^^ charCodeAt b i)) 0 = 0) := by
      unfold fixedTimeComparison
      rw [if_pos hlen]
      simp
    rw [hb, decide_eq_true_eq, foldl_lor_eq_zero]
    simp only [List.mem_range, true_and]
    constructor
    · intro h
      refine List.ext_get hlen fun i h1 h2 => ?_
      have h3 := h i h1
      rw [Nat.xor_eq_zero, charCodeAt_of_lt h1, charCodeAt_of_lt h2] at h3
      exact Char.toNat_inj h3
    · rintro rfl i _
      simp [Nat.xor_eq_zero]
  · have hb : fixedTimeComparison a b =
        decide ((List.range a.length).foldl
          (fun acc i => acc ||| (charCodeAt a i ^^^ charCodeAt a i)) 1 = 0) := by
      unfold fixedTimeComparison
      rw [if_neg hlen]
      simp
    rw [hb, decide_eq_true_eq, foldl_lor_eq_zero]
    constructor
    · rintro ⟨h, -⟩
      exact absurd h one_ne_zero
    · intro h
      exact absurd (congrArg List.length h) hlen

/-! ## Lemmas: dictionaries -/

/-- The keys of a dictionary, in order. -/
def keysE {α : Type} (m : Entries α) : List Str := m.map Prod.fst

theorem lookupE_insertE_self {α : Type} (m : Entries α) (k : Str) (v : α) :
    lookupE (insertE m k v) k = some v := by
  induction m with
  | nil => simp [insertE, lookupE]
  | cons kv rest ih =>
    obtain ⟨k', w⟩ := kv
    by_cases h : k' = k
    · simp [insertE, lookupE, h]
    · simp [insertE, lookupE, h, ih]

theorem lookupE_insertE_ne {α : Type} (m : Entries α) {k k' : Str} (v : α)
    (h : k ≠ k') : lookupE (insertE m k v) k' = lookupE m k' := by
  induction m with
  | nil => simp [insertE, lookupE, h]
  | cons kv rest ih =>
    obtain ⟨k0, w⟩ := kv
    by_cases h0 : k0 = k
    · subst h0
      simp [insertE, lookupE, h]
    · simp only [insertE, if_neg h0, lookupE]
      by_cases h1 : k0 = k'
      · simp [h1]
      · simp [h1, ih]

theorem lookupE_eq_none_iff {α : Type} (m : Entries α) (k : Str) :
    lookupE m k = Option.none ↔ k ∉ keysE m := by
  induction m with
  | nil => simp [lookupE, keysE]
  | cons kv rest ih =>
    obtain ⟨k0, w⟩ := kv
    by_cases h : k0 = k
    · simp [lookupE, keysE, h]
    · simp [lookupE, keysE, h, ih, Ne.symm h]

theorem keysE_insertE {α : Type} (m : Entries α) (k : Str) (v : α) :
    keysE (insertE m k v) = if k ∈ keysE m then keysE m else keysE m ++ [k] := by
  induction m with
  | nil => simp [insertE, keysE]
  | cons kv rest ih =>
    obtain ⟨k0, w⟩ := kv
    by_cases h : k0 = k
    · simp [insertE, keysE, h]
    · simp only [insertE, if_neg h, keysE, List.map_cons, List.mem_cons]
      rw [show List.map Prod.fst (insertE rest k v) = keysE (insertE rest k v) from rfl, ih]
      by_cases h2 : k ∈ keysE rest
      · simp only [keysE] at h2
        simp [keysE, h2, Ne.symm h]
      · simp only [keysE] at h2
        simp [keysE, h2, Ne.symm h]

theorem nodup_keysE_insertE {α : Type} {m : Entries α} (k : Str) (v : α)
    (h : (keysE m).Nodup) : (keysE (insertE m k v)).Nodup := by
  rw [keysE_insertE]
  by_cases hk : k ∈ keysE m
  · simpa [hk]
  · simp only [hk, if_false]
    exact List.Nodup.append h (List.nodup_singleton k) (by simpa using hk)

theorem keysE_valid_insertE {α : Type} {m : Entries α} {k : Str} (v : α)
    (hm : ∀ k' ∈ keysE m, validName k' = true) (hk : validName k = true) :
    ∀ k' ∈ keysE (insertE m k v), validName k' = true := by
  rw [keysE_insertE]
  by_cases h : k ∈ keysE m
  · simpa [h] using hm
  · simp only [h, if_false]
    intro k' hk'
    rcases List.mem_append.mp hk' with h1 | h1
    · exact hm k' h1
    · simp only [List.mem_singleton] at h1
      exact h1 ▸ hk

/-- The per-entry loops of `parseSigned`/`parseSealed`: looking up a key in
the rebuilt dictionary is the outcome function bound over the original lookup,
provided the original keys are distinct (as `parse`'s results always are). -/
theorem lookupE_foldl_outcome {α β : Type} (f : α → Option β) (m : Entries α)
    (k : Str) (hnd : (keysE m).Nodup) :
    ∀ acc : Entries β,
      lookupE (m.foldl (outcomeStep f) acc) k =
      (match lookupE m k with
       | some v => match f v with
         | some r => some r
         | Option.none => lookupE acc k
       | Option.none => lookupE acc k) := by
  induction m with
  | nil => intro acc; simp [lookupE]
  | cons kv rest ih =>
    obtain ⟨k0, v0⟩ := kv
    intro acc
    simp only [keysE, List.map_cons, List.nodup_cons] at hnd
    obtain ⟨hk0, hnd'⟩ := hnd
    rw [List.foldl_cons, ih hnd']
    by_cases h : k0 = k
    · subst h
      have hrest : lookupE rest k0 = Option.none :=
        (lookupE_eq_none_iff rest k0).mpr hk0
      rw [hrest]
      simp only [lookupE, if_pos rfl]
      cases hf : f v0 with
      | none => simp [outcomeStep, hf]
      | some r => simp [outcomeStep, hf, lookupE_insertE_self]
    · simp only [lookupE, if_neg h]
      cases hl : lookupE rest k with
      | none =>
        cases hf : f v0 with
        | none => simp [outcomeStep, hf]
        | some r => simp [outcomeStep, hf, lookupE_insertE_ne _ _ (fun he => h he)]
      | some v =>
        cases hf2 : f v with
        | none =>
          cases hf : f v0 with
          | none => simp [outcomeStep, hf]
          | some r => simp [outcomeStep, hf, hf2, lookupE_insertE_ne _ _ (fun he => h he)]
        | some r => simp [hf2]

/-! ## Lemmas: character classes -/

theorem validNameChar_ne_semi {c : Char} (h : validNameChar c = true) : c ≠ ';' := by
  rintro rfl
  revert h
  decide

theorem validNameChar_ne_eq {c : Char} (h : validNameChar c = true) : c ≠ '=' := by
  rintro rfl
  revert h
  decide

theorem mem_wsChars_cases {c : Char} (hw : jsWhitespace c = true) :
    c = '\t' ∨ c = '\n' ∨ c = '\x0b' ∨ c = '\x0c' ∨ c = '\r' ∨ c = ' ' ∨
      c = '\u00A0' ∨ c = '\uFEFF' := by
  simpa [jsWhitespace, wsChars] using hw

theorem validNameChar_not_ws {c : Char} (h : validNameChar c = true) :
    jsWhitespace c = false := by
  by_contra hw
  rw [Bool.not_eq_false] at hw
  rcases mem_wsChars_cases hw with rfl | rfl | rfl | rfl | rfl | rfl | rfl | rfl <;>
    exact absurd h (by decide)

theorem uriUnreserved_valid {c : Char} (h : uriUnreserved c = true) :
    validValueChar c = true := by
  simp only [uriUnreserved, Bool.or_eq_true, Bool.and_eq_true, decide_eq_true_eq,
    beq_iff_eq] at h
  simp only [validValueChar, Bool.or_eq_true, Bool.and_eq_true, decide_eq_true_eq,
    bne_iff_ne, ne_eq]
  omega

theorem uriUnreserved_not_ws {c : Char} (h : uriUnreserved c = true) :
    jsWhitespace c = false := by
  by_contra hw
  rw [Bool.not_eq_false] at hw
  rcases mem_wsChars_cases hw with rfl | rfl | rfl | rfl | rfl | rfl | rfl | rfl <;>
    exact absurd h (by decide)

theorem uriUnreserved_ne_semi {c : Char} (h : uriUnreserved c = true) : c ≠ ';' := by
  rintro rfl
  revert h
  decide

theorem uriUnreserved_ne_pct {c : Char} (h : uriUnreserved c = true) : c ≠ '%' := by
  rintro rfl
  revert h
  decide

theorem uriUnreserved_ne_quote {c : Char} (h : uriUnreserved c = true) : c ≠ '"' := by
  rintro rfl
  revert h
  decide

/-! ## Lemmas: trim, indexOf, split -/

theorem dropWhile_eq_self_of {p : Char → Bool} {s : Str}
    (h : ∀ c ∈ s, p c = false) : s.dropWhile p = s := by
  cases s with
  | nil => rfl
  | cons c rest => simp [List.dropWhile_cons, h c (List.mem_cons_self c rest)]

theorem trim_eq_self {s : Str} (h : ∀ c ∈ s, jsWhitespace c = false) : trim s = s := by
  unfold trim
  rw [dropWhile_eq_self_of h, dropWhile_eq_self_of (fun c hc => h c (List.mem_reverse.mp hc)),
    List.reverse_reverse]

theorem indexOfChar_eq_none_of {s : Str} {t : Char} (h : ∀ c ∈ s, c ≠ t) :
    indexOfChar s t = Option.none := by
  induction s with
  | nil => rfl
  | cons c rest ih =>
    simp only [indexOfChar, if_neg (h c (List.mem_cons_self c rest))]
    rw [ih fun c hc => h c (List.mem_cons_of_mem _ hc)]
    rfl

theorem indexOfChar_append_of {n v : Str} {t : Char} (h : ∀ c ∈ n, c ≠ t) :
    indexOfChar (n ++ t :: v) t = some n.length := by
  induction n with
  | nil => simp [indexOfChar]
  | cons c rest ih =>
    simp only [List.cons_append, indexOfChar, if_neg (h c (List.mem_cons_self c rest)),
      List.append_eq]
    rw [ih fun c hc => h c (List.mem_cons_of_mem _ hc)]
    rfl

theorem splitOnChar_of_no_sep {sep : Char} {s : Str} (h : ∀ c ∈ s, c ≠ sep) :
    splitOnChar sep s = [s] := by
  induction s with
  | nil => rfl
  | cons c rest ih =>
    simp only [splitOnChar, if_neg (h c (List.mem_cons_self c rest))]
    rw [ih fun c hc => h c (List.mem_cons_of_mem _ hc)]

theorem splitOnChar_append_sep {sep : Char} {x y : Str} (hx : ∀ c ∈ x, c ≠ sep) :
    splitOnChar sep (x ++ sep :: y) = x :: splitOnChar sep y := by
  induction x with
  | nil => simp [splitOnChar]
  | cons c rest ih =>
    simp only [List.cons_append, splitOnChar, if_neg (hx c (List.mem_cons_self c rest)),
      List.append_eq]
    rw [ih fun c hc => hx c (List.mem_cons_of_mem _ hc)]

/-- Splitting `p0` followed by `;`-prefixed chunks recovers the chunk list,
provided no chunk (nor `p0`) contains a `;` of its own. -/
theorem splitOnChar_segments {p0 : Str} {chunks : List Str}
    (h0 : ∀ c ∈ p0, c ≠ ';') (h : ∀ ch ∈ chunks, ∀ c ∈ ch, c ≠ ';') :
    splitOnChar ';' (p0 ++ chunks.flatMap (fun ch => ';' :: ch)) = p0 :: chunks := by
  induction chunks generalizing p0 with
  | nil => simpa using splitOnChar_of_no_sep h0
  | cons ch rest ih =>
    have hch : ∀ c ∈ ch, c ≠ ';' := h ch (List.mem_cons_self ch rest)
    have hrest : ∀ ch' ∈ rest, ∀ c ∈ ch', c ≠ ';' :=
      fun ch' hc => h ch' (List.mem_cons_of_mem _ hc)
    have hassoc :
        p0 ++ (ch :: rest).flatMap (fun ch => ';' :: ch) =
          p0 ++ ';' :: (ch ++ rest.flatMap (fun ch => ';' :: ch)) := by
      simp
    rw [hassoc, splitOnChar_append_sep h0, ih hch hrest]

/-! ## Lemmas: `parsePair` and `parse` -/

/-- `parsePair` on a well-formed `name=value` pair (no whitespace, the name in
the token class, the value not quote-wrapped and in the value class) inserts
the percent-decoded value. -/
theorem parsePair_pair (filter : Option Str) (acc : Entries Str) {n v w : Str}
    (hn : validName n = true)
    (hfil : filter = Option.none ∨ filter = some [] ∨ filter = some n)
    (hnEq : ∀ c ∈ n, c ≠ '=')
    (hnWs : ∀ c ∈ n, jsWhitespace c = false)
    (hvWs : ∀ c ∈ v, jsWhitespace c = false)
    (hq : ¬(v.head? = some '"' ∧ v.getLast? = some '"'))
    (hval : validValue v = true)
    (hdec : decodeURIComponent v = some w) :
    parsePair filter acc (n ++ '=' :: v) = some (insertE acc n w) := by
  have hws : ∀ c ∈ n ++ '=' :: v, jsWhitespace c = false := by
    intro c hc
    rcases List.mem_append.mp hc with h | h
    · exact hnWs c h
    · rcases List.mem_cons.mp h with rfl | h
      · decide
      · exact hvWs c h
  have htake : (n ++ '=' :: v).take n.length = n := List.take_left n _
  have hdrop : (n ++ '=' :: v).drop (n.length + 1) = v := by
    have h2 : n ++ '=' :: v = (n ++ ['=']) ++ v := by simp
    have h3 : n.length + 1 = (n ++ ['=']).length := by simp
    rw [h2, h3, List.drop_left]
  have hqb : (v.head? == some '"' && v.getLast? == some '"') = false := by
    by_contra hb
    rw [Bool.not_eq_false, Bool.and_eq_true, beq_iff_eq, beq_iff_eq] at hb
    exact hq hb
  simp only [parsePair]
  rw [trim_eq_self hws, indexOfChar_append_of hnEq]
  dsimp only
  rw [htake, hdrop, trim_eq_self hnWs, trim_eq_self hvWs]
  have hfilb : filterTest filter n = false := by
    rcases hfil with rfl | rfl | rfl
    · rfl
    · rfl
    · simp [filterTest]
  rw [hfilb]
  simp [hn, hq, hval, hdec]

/-- Any successful `parsePair` step either leaves the accumulator unchanged or
inserts a token-class key. -/
theorem parsePair_cases {filter : Option Str} {acc : Entries Str} {p : Str}
    {acc' : Entries Str} (h : parsePair filter acc p = some acc') :
    acc' = acc ∨ ∃ k w, validName k = true ∧ acc' = insertE acc k w := by
  simp only [parsePair] at h
  split at h
  · exact Or.inl (Option.some.inj h).symm
  · rename_i i hidx
    split at h
    · exact Or.inl (Option.some.inj h).symm
    · rename_i hcond
      split at h
      all_goals split at h
      all_goals first
        | exact Or.inl (Option.some.inj h).symm
        | · rw [Option.map_eq_some'] at h
            obtain ⟨w, hw, rfl⟩ := h
            refine Or.inr ⟨_, w, ?_, rfl⟩
            by_cases hname : validName (trim (List.take i (trim p))) = true
            · exact hname
            · exfalso
              apply hcond
              rw [Bool.not_eq_true] at hname
              simp [hname]

theorem foldlM_parsePair_props {filter : Option Str} :
    ∀ (pairs : List Str) (acc m : Entries Str),
      (∀ k ∈ keysE acc, validName k = true) → (keysE acc).Nodup →
      pairs.foldlM (parsePair filter) acc = some m →
      (∀ k ∈ keysE m, validName k = true) ∧ (keysE m).Nodup := by
  intro pairs
  induction pairs with
  | nil =>
    intro acc m hv hnd h
    cases h
    exact ⟨hv, hnd⟩
  | cons p rest ih =>
    intro acc m hv hnd h
    rw [List.foldlM_cons] at h
    cases hp : parsePair filter acc p with
    | none =>
      rw [hp] at h
      exact absurd h (by simp)
    | some acc' =>
      rw [hp] at h
      simp only [Option.bind_eq_bind, Option.some_bind] at h
      rcases parsePair_cases hp with rfl | ⟨k, w, hk, rfl⟩
      · exact ih _ m hv hnd h
      · exact ih _ m (keysE_valid_insertE w hv hk) (nodup_keysE_insertE k w hnd) h

/-- `parse` only ever returns dictionaries whose keys are distinct token-class
names. -/
theorem parse_props {cookie : Str} {filter : Option Str} {m : Entries Str}
    (h : parse cookie filter = some m) :
    (∀ k ∈ keysE m, validName k = true) ∧ (keysE m).Nodup := by
  exact foldlM_parsePair_props _ [] m (by simp [keysE]) (by simp [keysE]) h

/-! ## Lemmas: UTF-8 and percent-encoding round trips -/

/-- Every `Char` carries a valid Unicode scalar value. -/
theorem char_toNat_valid (c : Char) :
    c.toNat < 55296 ∨ (57343 < c.toNat ∧ c.toNat < 1114112) := by
  rcases c.valid with h | ⟨h1, h2⟩
  · exact Or.inl (UInt32.toNat_lt_of_lt (by decide) h)
  · exact Or.inr ⟨UInt32.lt_toNat_of_lt (by decide) h1, UInt32.toNat_lt_of_lt (by decide) h2⟩

theorem hexVal_hexCharUpper : ∀ x, x < 16 → hexVal (hexCharUpper x) = some x := by decide

theorem utf8EncodeNat_one {n : Nat} (h : n < 128) : utf8EncodeNat n = [n] := by
  simp [utf8EncodeNat, h]

theorem utf8EncodeNat_two {n : Nat} (h1 : 128 ≤ n) (h2 : n < 2048) :
    utf8EncodeNat n = [192 + n / 64, 128 + n % 64] := by
  rw [utf8EncodeNat, if_neg (by omega), if_pos h2]

theorem utf8EncodeNat_three {n : Nat} (h1 : 2048 ≤ n) (h2 : n < 65536) :
    utf8EncodeNat n = [224 + n / 4096, 128 + n / 64 % 64, 128 + n % 64] := by
  rw [utf8EncodeNat, if_neg (by omega), if_neg (by omega), if_pos h2]

theorem utf8EncodeNat_four {n : Nat} (h1 : 65536 ≤ n) :
    utf8EncodeNat n = [240 + n / 262144, 128 + n / 4096 % 64, 128 + n / 64 % 64, 128 + n % 64] := by
  rw [utf8EncodeNat, if_neg (by omega), if_neg (by omega), if_neg (by omega)]

/-- The token image of one character under `encodeURIComponent`. -/
def tokChar (c : Char) : List PctTok :=
  if uriUnreserved c then [.raw c] else (utf8EncodeNat c.toNat).map .byte

theorem utf8EncodeNat_bytes_lt {n : Nat} (hn : n < 1114112) :
    ∀ b ∈ utf8EncodeNat n, b < 256 := by
  intro b hb
  unfold utf8EncodeNat at hb
  split at hb
  · simp only [List.mem_singleton] at hb
    omega
  · split at hb
    · simp only [List.mem_cons, List.not_mem_nil, or_false] at hb
      rcases hb with rfl | rfl <;> omega
    · split at hb
      · simp only [List.mem_cons, List.not_mem_nil, or_false] at hb
        rcases hb with rfl | rfl | rfl <;> omega
      · simp only [List.mem_cons, List.not_mem_nil, or_false] at hb
        rcases hb with rfl | rfl | rfl | rfl <;> omega

theorem pctTokens_cons_ne {c : Char} (rest : Str) (h : c ≠ '%') :
    pctTokens (c :: rest) = (pctTokens rest).map (.raw c :: ·) := by
  match rest with
  | [] => simp only [pctTokens, if_neg h]
  | [h1] => simp only [pctTokens, if_neg h]
  | h1 :: h2 :: rest2 => simp only [pctTokens, if_neg h]

/-- Scanning the `%XX` escapes of a byte list prepends those bytes as tokens. -/
theorem pctTokens_pctBytes (bs : List Nat) (rest : Str) (hb : ∀ b ∈ bs, b < 256) :
    pctTokens (bs.flatMap pctByte ++ rest) =
      (pctTokens rest).map (fun ts => bs.map PctTok.byte ++ ts) := by
  induction bs with
  | nil =>
    simp only [List.flatMap_nil, List.nil_append, List.map_nil]
    cases pctTokens rest <;> simp
  | cons b bs ih =>
    have hb0 : b < 256 := hb b (List.mem_cons_self b bs)
    simp only [List.flatMap_cons, pctByte, List.cons_append, List.append_assoc,
      List.nil_append]
    simp only [pctTokens, if_pos rfl]
    rw [hexVal_hexCharUpper _ (by omega), hexVal_hexCharUpper _ (by omega)]
    dsimp only
    rw [show 16 * (b / 16 % 16) + b % 16 = b from by omega]
    rw [ih (fun x hx => hb x (List.mem_cons_of_mem _ hx))]
    cases pctTokens rest <;> simp

theorem pctTokens_encURIChar (c : Char) (rest : Str) :
    pctTokens (encURIChar c ++ rest) = (pctTokens rest).map (fun ts => tokChar c ++ ts) := by
  by_cases hu : uriUnreserved c = true
  · rw [encURIChar, if_pos hu, tokChar, if_pos hu, List.singleton_append]
    rw [pctTokens_cons_ne rest (uriUnreserved_ne_pct hu)]
    cases pctTokens rest <;> simp
  · rw [encURIChar, if_neg hu, tokChar, if_neg hu]
    have hlt : c.toNat < 1114112 := by
      rcases char_toNat_valid c with h | ⟨_, h⟩ <;> omega
    exact pctTokens_pctBytes _ rest (utf8EncodeNat_bytes_lt hlt)

theorem utf8Run_raw (c : Char) (rest : List PctTok) :
    utf8Run 0 0 0 (.raw c :: rest) = (utf8Run 0 0 0 rest).map (c :: ·) := by
  simp only [utf8Run]

theorem utf8Run_byte1 {b : Nat} (h : b < 128) (rest : List PctTok) :
    utf8Run 0 0 0 (.byte b :: rest) = (utf8Run 0 0 0 rest).map (Char.ofNat b :: ·) := by
  simp only [utf8Run]
  rw [if_pos h]

theorem utf8Run_lead2 {b : Nat} (h : 194 ≤ b ∧ b ≤ 223) (rest : List PctTok) :
    utf8Run 0 0 0 (.byte b :: rest) = utf8Run 1 (b - 192) 128 rest := by
  simp only [utf8Run]
  rw [if_neg (by omega), if_neg (by omega), if_pos (by omega)]

theorem utf8Run_lead3 {b : Nat} (h : 224 ≤ b ∧ b ≤ 239) (rest : List PctTok) :
    utf8Run 0 0 0 (.byte b :: rest) = utf8Run 2 (b - 224) 2048 rest := by
  simp only [utf8Run]
  rw [if_neg (by omega), if_neg (by omega), if_neg (by omega), if_pos (by omega)]

theorem utf8Run_lead4 {b : Nat} (h : 240 ≤ b ∧ b ≤ 244) (rest : List PctTok) :
    utf8Run 0 0 0 (.byte b :: rest) = utf8Run 3 (b - 240) 65536 rest := by
  simp only [utf8Run]
  rw [if_neg (by omega), if_neg (by omega), if_neg (by omega), if_neg (by omega),
    if_pos (by omega)]

theorem utf8Run_cont_more {need acc lo b : Nat} {rest : List PctTok}
    (hb : 128 ≤ b ∧ b ≤ 191) :
    utf8Run (need + 2) acc lo (.byte b :: rest) =
      utf8Run (need + 1) (acc * 64 + (b - 128)) lo rest := by
  simp only [utf8Run]
  rw [if_pos hb, if_neg (by omega)]

theorem utf8Run_cont_last {acc lo b : Nat} {rest : List PctTok}
    (hb : 128 ≤ b ∧ b ≤ 191)
    (hv : lo ≤ acc * 64 + (b - 128) ∧
      ¬(55296 ≤ acc * 64 + (b - 128) ∧ acc * 64 + (b - 128) ≤ 57343) ∧
      acc * 64 + (b - 128) ≤ 1114111) :
    utf8Run 1 acc lo (.byte b :: rest) =
      (utf8Run 0 0 0 rest).map (Char.ofNat (acc * 64 + (b - 128)) :: ·) := by
  simp only [utf8Run]
  rw [if_pos hb, if_pos trivial, if_pos hv]

/-- Assembling one character's UTF-8 byte tokens prepends that character. -/
theorem utf8Run_encBytes (c : Char) (toks : List PctTok) :
    utf8Run 0 0 0 ((utf8EncodeNat c.toNat).map PctTok.byte ++ toks) =
      (utf8Run 0 0 0 toks).map (c :: ·) := by
  have hvalid := char_toNat_valid c
  rcases Nat.lt_or_ge c.toNat 128 with h1 | h1
  · rw [utf8EncodeNat_one h1]
    simp only [List.map_cons, List.map_nil, List.cons_append, List.nil_append]
    rw [utf8Run_byte1 h1, Char.ofNat_toNat]
  · rcases Nat.lt_or_ge c.toNat 2048 with h2 | h2
    · rw [utf8EncodeNat_two h1 h2]
      simp only [List.map_cons, List.map_nil, List.cons_append, List.nil_append]
      rw [utf8Run_lead2 (by omega), utf8Run_cont_last (by omega) (by omega)]
      rw [show (192 + c.toNat / 64 - 192) * 64 + (128 + c.toNat % 64 - 128) = c.toNat
            from by omega, Char.ofNat_toNat]
    · rcases Nat.lt_or_ge c.toNat 65536 with h3 | h3
      · rw [utf8EncodeNat_three h2 h3]
        simp only [List.map_cons, List.map_nil, List.cons_append, List.nil_append]
        rw [utf8Run_lead3 (by omega), utf8Run_cont_more (by omega),
          utf8Run_cont_last (by omega) (by
            refine ⟨by omega, ?_, by omega⟩
            rcases hvalid with h | ⟨h, _⟩ <;> omega)]
        rw [show ((224 + c.toNat / 4096 - 224) * 64 + (128 + c.toNat / 64 % 64 - 128)) * 64 +
              (128 + c.toNat % 64 - 128) = c.toNat from by omega, Char.ofNat_toNat]
      · have hlt : c.toNat < 1114112 := by
          rcases hvalid with h | ⟨_, h⟩ <;> omega
        rw [utf8EncodeNat_four h3]
        simp only [List.map_cons, List.map_nil, List.cons_append, List.nil_append]
        rw [utf8Run_lead4 (by omega), utf8Run_cont_more (by omega),
          utf8Run_cont_more (by omega), utf8Run_cont_last (by omega) (by omega)]
        rw [show (((240 + c.toNat / 262144 - 240) * 64 + (128 + c.toNat / 4096 % 64 - 128)) *
              64 + (128 + c.toNat / 64 % 64 - 128)) * 64 +
              (128 + c.toNat % 64 - 128) = c.toNat from by omega, Char.ofNat_toNat]

/-- Assembling one character's token image prepends that character. -/
theorem utf8FromToks_tokChar (c : Char) (toks : List PctTok) :
    utf8FromToks (tokChar c ++ toks) = (utf8FromToks toks).map (c :: ·) := by
  by_cases hu : uriUnreserved c = true
  · rw [tokChar, if_pos hu, List.singleton_append]
    exact utf8Run_raw c toks
  · rw [tokChar, if_neg hu]
    exact utf8Run_encBytes c toks

theorem encodeURIComponent_cons (c : Char) (rest : Str) :
    encodeURIComponent (c :: rest) = encURIChar c ++ encodeURIComponent rest := by
  simp [encodeURIComponent]

/-- `decodeURIComponent` is a left inverse of `encodeURIComponent`. -/
theorem decodeURI_encodeURI (s : Str) :
    decodeURIComponent (encodeURIComponent s) = some s := by
  induction s with
  | nil => rfl
  | cons c rest ih =>
    rw [encodeURIComponent_cons]
    unfold decodeURIComponent at ih ⊢
    rw [pctTokens_encURIChar]
    cases htoks : pctTokens (encodeURIComponent rest) with
    | none =>
      rw [htoks] at ih
      simp at ih
    | some toks =>
      rw [htoks] at ih
      simp only [Option.some_bind] at ih
      simp only [Option.map_some', Option.some_bind]
      rw [utf8FromToks_tokChar, ih]
      rfl

theorem pctTokens_no_pct {s : Str} (h : ∀ c ∈ s, c ≠ '%') :
    pctTokens s = some (s.map .raw) := by
  induction s with
  | nil => rfl
  | cons c rest ih =>
    rw [pctTokens_cons_ne rest (h c (List.mem_cons_self c rest)),
      ih fun c hc => h c (List.mem_cons_of_mem _ hc)]
    rfl

theorem utf8FromToks_raws (s : Str) : utf8FromToks (s.map .raw) = some s := by
  induction s with
  | nil => rfl
  | cons c rest ih =>
    rw [List.map_cons]
    unfold utf8FromToks at ih ⊢
    rw [utf8Run_raw, ih]
    rfl

/-- A `%`-free string percent-decodes to itself. -/
theorem decodeURI_no_pct {s : Str} (h : ∀ c ∈ s, c ≠ '%') :
    decodeURIComponent s = some s := by
  unfold decodeURIComponent
  rw [pctTokens_no_pct h]
  simp only [Option.some_bind]
  exact utf8FromToks_raws s

/-- `utf8Decode` is a left inverse of `utf8Encode`. -/
theorem utf8Decode_utf8Encode (s : Str) : utf8Decode (utf8Encode s) = some s := by
  induction s with
  | nil => rfl
  | cons c rest ih =>
    unfold utf8Decode utf8FromToks at ih ⊢
    rw [show utf8Encode (c :: rest) = utf8EncodeNat c.toNat ++ utf8Encode rest from by
      simp [utf8Encode]]
    rw [List.map_append, utf8Run_encBytes, ih]
    rfl

/-! ## Lemmas: base64url round trip -/

theorem b64urlVal_b64urlChar : ∀ x, x < 64 → b64urlVal (b64urlChar x) = some x := by decide

theorem base64urlDecode_encode (bs : List Nat) (h : ∀ b ∈ bs, b < 256) :
    base64urlDecode (base64urlEncode bs) = some bs := by
  unfold base64urlDecode
  induction bs using base64urlEncode.induct with
  | case1 => rfl
  | case2 b1 =>
    have hb1 : b1 < 256 := h b1 (by simp)
    simp only [base64urlEncode, b64DecodeWith]
    rw [b64urlVal_b64urlChar (b1 / 4) (by omega),
      b64urlVal_b64urlChar (b1 % 4 * 16) (by omega)]
    simp only [Option.bind_eq_bind, Option.pure_def, Option.some_bind]
    have he : b1 / 4 * 4 + b1 % 4 * 16 / 16 = b1 := by omega
    rw [he]
  | case3 b1 b2 =>
    have hb1 : b1 < 256 := h b1 (by simp)
    have hb2 : b2 < 256 := h b2 (by simp)
    simp only [base64urlEncode, b64DecodeWith]
    rw [b64urlVal_b64urlChar (b1 / 4) (by omega),
      b64urlVal_b64urlChar (b1 % 4 * 16 + b2 / 16) (by omega),
      b64urlVal_b64urlChar (b2 % 16 * 4) (by omega)]
    simp only [Option.bind_eq_bind, Option.pure_def, Option.some_bind]
    have he1 : b1 / 4 * 4 + (b1 % 4 * 16 + b2 / 16) / 16 = b1 := by omega
    have he2 : (b1 % 4 * 16 + b2 / 16) % 16 * 16 + b2 % 16 * 4 / 4 = b2 := by omega
    rw [he1, he2]
  | case4 b1 b2 b3 rest ih =>
    have hb1 : b1 < 256 := h b1 (by simp)
    have hb2 : b2 < 256 := h b2 (by simp)
    have hb3 : b3 < 256 := h b3 (by simp)
    have hrest : ∀ b ∈ rest, b < 256 := fun b hb => h b (by simp [hb])
    simp only [base64urlEncode, b64DecodeWith]
    rw [b64urlVal_b64urlChar (b1 / 4) (by omega),
      b64urlVal_b64urlChar (b1 % 4 * 16 + b2 / 16) (by omega),
      b64urlVal_b64urlChar (b2 % 16 * 4 + b3 / 64) (by omega),
      b64urlVal_b64urlChar (b3 % 64) (by omega)]
    simp only [Option.bind_eq_bind, Option.pure_def, Option.some_bind]
    rw [ih hrest]
    simp only [Option.bind_eq_bind, Option.pure_def, Option.some_bind]
    have he1 : b1 / 4 * 4 + (b1 % 4 * 16 + b2 / 16) / 16 = b1 := by omega
    have he2 : (b1 % 4 * 16 + b2 / 16) % 16 * 16 + (b2 % 16 * 4 + b3 / 64) / 4 = b2 := by omega
    have he3 : (b2 % 16 * 4 + b3 / 64) % 4 * 64 + b3 % 64 = b3 := by omega
    rw [he1, he2, he3]

/-! ## Lemmas: characters and shapes of sealed-value components -/

theorem utf8Encode_bytes_lt (s : Str) : ∀ b ∈ utf8Encode s, b < 256 := by
  intro b hb
  unfold utf8Encode at hb
  rw [List.mem_flatMap] at hb
  obtain ⟨c, _, hb⟩ := hb
  have hlt : c.toNat < 1114112 := by
    rcases char_toNat_valid c with h | ⟨_, h⟩ <;> omega
  exact utf8EncodeNat_bytes_lt hlt b hb

theorem hexCharLower_comp : ∀ x, x < 16 →
    uriUnreserved (hexCharLower x) = true ∧ hexCharLower x ≠ '*' := by decide

theorem hexDigitsAux_chars :
    ∀ fuel n (acc : Str), (∀ c ∈ acc, uriUnreserved c = true ∧ c ≠ '*') →
      ∀ c ∈ hexDigitsAux fuel n acc, uriUnreserved c = true ∧ c ≠ '*' := by
  intro fuel
  induction fuel with
  | zero =>
    intro n acc hacc
    exact hacc
  | succ fuel ih =>
    intro n acc hacc c hc
    rw [hexDigitsAux] at hc
    by_cases hn : n = 0
    · rw [if_pos hn] at hc
      exact hacc c hc
    · rw [if_neg hn] at hc
      refine ih (n / 16) _ ?_ c hc
      intro c' hc'
      rcases List.mem_cons.mp hc' with rfl | h
      · exact hexCharLower_comp _ (by omega)
      · exact hacc c' h

theorem natToHex_chars (n : Nat) :
    ∀ c ∈ natToHex n, uriUnreserved c = true ∧ c ≠ '*' := by
  unfold natToHex
  by_cases hn : n = 0
  · rw [if_pos hn]
    intro c hc
    simp only [List.mem_singleton] at hc
    subst hc
    decide
  · rw [if_neg hn]
    exact hexDigitsAux_chars _ _ [] (by simp)

theorem byteToHexPadded_chars (b : Nat) :
    ∀ c ∈ byteToHexPadded b, uriUnreserved c = true ∧ c ≠ '*' := by
  unfold byteToHexPadded
  intro c hc
  dsimp only at hc
  split at hc
  · rcases List.mem_cons.mp hc with rfl | h
    · decide
    · exact natToHex_chars b c h
  · exact natToHex_chars b c hc

theorem bytesToHex_chars (l : List Nat) :
    ∀ c ∈ bytesToHex l, uriUnreserved c = true ∧ c ≠ '*' := by
  unfold bytesToHex
  intro c hc
  rw [List.mem_flatten] at hc
  obtain ⟨a, ha, hc⟩ := hc
  rw [List.mem_map] at ha
  obtain ⟨b, _, rfl⟩ := ha
  exact byteToHexPadded_chars b c hc

theorem b64urlChar_comp : ∀ x, x < 64 →
    uriUnreserved (b64urlChar x) = true ∧ b64urlChar x ≠ '*' := by decide

theorem b64urlChar_comp' (n : Nat) :
    uriUnreserved (b64urlChar n) = true ∧ b64urlChar n ≠ '*' := by
  have h : b64urlChar n = b64urlChar (n % 64) := by
    unfold b64urlChar
    rw [Nat.mod_mod_of_dvd _ dvd_rfl]
  rw [h]
  exact b64urlChar_comp _ (Nat.mod_lt _ (by omega))

theorem base64urlEncode_chars (bs : List Nat) :
    ∀ c ∈ base64urlEncode bs, uriUnreserved c = true ∧ c ≠ '*' := by
  induction bs using base64urlEncode.induct with
  | case1 => simp [base64urlEncode]
  | case2 b1 =>
    intro c hc
    simp only [base64urlEncode, List.mem_cons, List.not_mem_nil, or_false] at hc
    rcases hc with rfl | rfl <;> exact b64urlChar_comp' _
  | case3 b1 b2 =>
    intro c hc
    simp only [base64urlEncode, List.mem_cons, List.not_mem_nil, or_false] at hc
    rcases hc with rfl | rfl | rfl <;> exact b64urlChar_comp' _
  | case4 b1 b2 b3 rest ih =>
    intro c hc
    simp only [base64urlEncode, List.mem_cons] at hc
    rcases hc with rfl | rfl | rfl | rfl | h
    · exact b64urlChar_comp' _
    · exact b64urlChar_comp' _
    · exact b64urlChar_comp' _
    · exact b64urlChar_comp' _
    · exact ih c h

theorem hexDigitsAux_ne_nil :
    ∀ fuel n (acc : Str), (acc ≠ [] ∨ (n ≠ 0 ∧ fuel ≠ 0)) →
      hexDigitsAux fuel n acc ≠ [] := by
  intro fuel
  induction fuel with
  | zero =>
    intro n acc h
    rcases h with h | ⟨_, h⟩
    · exact h
    · exact absurd rfl h
  | succ fuel ih =>
    intro n acc h
    rw [hexDigitsAux]
    by_cases hn : n = 0
    · rw [if_pos hn]
      rcases h with h | ⟨h2, _⟩
      · exact h
      · exact absurd hn h2
    · rw [if_neg hn]
      exact ih (n / 16) _ (Or.inl (by simp))

theorem natToHex_ne_nil (n : Nat) : natToHex n ≠ [] := by
  unfold natToHex
  by_cases hn : n = 0
  · rw [if_pos hn]
    simp
  · rw [if_neg hn]
    exact hexDigitsAux_ne_nil _ _ [] (Or.inr ⟨hn, by omega⟩)

theorem byteToHexPadded_ne_nil (b : Nat) : byteToHexPadded b ≠ [] := by
  unfold byteToHexPadded
  dsimp only
  split
  · simp
  · exact natToHex_ne_nil b

theorem bytesToHex_ne_nil {l : List Nat} (h : l ≠ []) : bytesToHex l ≠ [] := by
  cases l with
  | nil => exact absurd rfl h
  | cons b rest =>
    unfold bytesToHex
    simp only [List.map_cons, List.flatten_cons]
    intro he
    exact byteToHexPadded_ne_nil b (List.append_eq_nil.mp he).1

/-! ## Lemmas: the iron seal round trip -/

theorem isEmpty_false_of_ne_nil {l : Str} (h : l ≠ []) : l.isEmpty = false := by
  cases l with
  | nil => exact absurd rfl h
  | cons a r => rfl

/-- Sealing then unsealing with the same password recovers the value. -/
theorem ironUnseal_ironSeal (P : CryptoProvider) (rnd : SealRnd) (v p : Str)
    (hAES : ∀ k iv d, P.aesCbcDecrypt k iv (P.aesCbcEncrypt k iv d) = some d)
    (hEncB : ∀ k iv d, (∀ b ∈ d, b < 256) → ∀ b ∈ P.aesCbcEncrypt k iv d, b < 256)
    (hIv : ∀ b ∈ rnd.iv, b < 256)
    (hSaltE : rnd.encSalt ≠ []) (hSaltM : rnd.macSalt ≠ []) :
    ironUnseal P (ironSeal P rnd v p) p = .ok v := by
  set salt1 := bytesToHex rnd.encSalt with hsalt1_def
  set salt2 := bytesToHex rnd.macSalt with hsalt2_def
  set key1 := P.pbkdf2 p salt1 1 (IronAlg.keyBits .aes256cbc / 8) with hkey1_def
  set enc := P.aesCbcEncrypt key1 rnd.iv (utf8Encode v) with henc_def
  set encB64 := base64urlEncode enc with hencB_def
  set ivB64 := base64urlEncode rnd.iv with hivB_def
  set macBase := salt1 ++ '*' :: ivB64 ++ '*' :: encB64 with hmacBase_def
  set key2 := P.pbkdf2 p salt2 1 (IronAlg.keyBits .sha256 / 8) with hkey2_def
  set digest := base64urlEncode (P.hmacSha256 key2 (utf8Encode macBase)) with hdigest_def
  have hseal : ironSeal P rnd v p = macBase ++ '*' :: salt2 ++ '*' :: digest := rfl
  have hs1 : ∀ c ∈ salt1, c ≠ '*' := fun c hc => (bytesToHex_chars _ c hc).2
  have hs2 : ∀ c ∈ salt2, c ≠ '*' := fun c hc => (bytesToHex_chars _ c hc).2
  have hivc : ∀ c ∈ ivB64, c ≠ '*' := fun c hc => (base64urlEncode_chars _ c hc).2
  have hencc : ∀ c ∈ encB64, c ≠ '*' := fun c hc => (base64urlEncode_chars _ c hc).2
  have hdigc : ∀ c ∈ digest, c ≠ '*' := fun c hc => (base64urlEncode_chars _ c hc).2
  have hsplit : splitOnChar '*' (macBase ++ '*' :: salt2 ++ '*' :: digest)
      = [salt1, ivB64, encB64, salt2, digest] := by
    have h1 : macBase ++ '*' :: salt2 ++ '*' :: digest
        = salt1 ++ '*' :: (ivB64 ++ '*' :: (encB64 ++ '*' :: (salt2 ++ '*' :: digest))) := by
      rw [hmacBase_def]
      simp [List.append_assoc]
    rw [h1, splitOnChar_append_sep hs1, splitOnChar_append_sep hivc,
      splitOnChar_append_sep hencc, splitOnChar_append_sep hs2,
      splitOnChar_of_no_sep hdigc]
  rw [hseal]
  unfold ironUnseal
  rw [hsplit]
  dsimp only
  have hempty2 : salt2.isEmpty = false := isEmpty_false_of_ne_nil (bytesToHex_ne_nil hSaltM)
  have hmac : hmacWithPassword P [] p { integrityOpts with salt := some salt2 } macBase
      = { digest := digest, salt := salt2 } := by
    unfold hmacWithPassword generateKey
    dsimp only
    rw [hempty2]
    rfl
  rw [hmac]
  rw [(fixedTimeComparison_eq_iff digest digest).mpr rfl]
  rw [show base64urlDecode ivB64 = some rnd.iv from base64urlDecode_encode _ hIv]
  rw [show base64urlDecode encB64 = some enc from
    base64urlDecode_encode _ (hEncB _ _ _ (utf8Encode_bytes_lt v))]
  dsimp only
  have hempty1 : salt1.isEmpty = false := isEmpty_false_of_ne_nil (bytesToHex_ne_nil hSaltE)
  have hdec : ironDecrypt P p
      { algorithm := encryptionOpts.algorithm, iterations := encryptionOpts.iterations,
        saltBits := encryptionOpts.saltBits, salt := some salt1, iv := some rnd.iv }
      enc = some v := by
    unfold ironDecrypt generateKey
    dsimp only [encryptionOpts]
    rw [hempty1]
    rw [if_neg Bool.false_ne_true]
    rw [show P.aesCbcDecrypt (P.pbkdf2 p salt1 1 (IronAlg.keyBits .aes256cbc / 8)) rnd.iv enc
        = some (utf8Encode v) from hAES _ _ _]
    exact utf8Decode_utf8Encode v
  rw [hdec]
  rfl

/-! ## Lemmas: parsing a single serialized pair -/

theorem validName_all {n : Str} (hn : validName n = true) :
    ∀ c ∈ n, validNameChar c = true := by
  rw [validName, Bool.and_eq_true, List.all_eq_true] at hn
  exact fun c hc => hn.2 c hc

/-- `parse` on a single `name=value` pair with a token-class name and a
well-behaved value inserts the decoded value. -/
theorem parse_single_pair {n v w : Str} (filter : Option Str)
    (hn : validName n = true)
    (hfil : filter = Option.none ∨ filter = some [] ∨ filter = some n)
    (hvWs : ∀ c ∈ v, jsWhitespace c = false)
    (hvSemi : ∀ c ∈ v, c ≠ ';')
    (hq : ¬(v.head? = some '"' ∧ v.getLast? = some '"'))
    (hval : validValue v = true)
    (hdec : decodeURIComponent v = some w) :
    parse (n ++ '=' :: v) filter = some [(n, w)] := by
  have hnc := validName_all hn
  have hnWs : ∀ c ∈ n, jsWhitespace c = false := fun c hc => validNameChar_not_ws (hnc c hc)
  have hnEq : ∀ c ∈ n, c ≠ '=' := fun c hc => validNameChar_ne_eq (hnc c hc)
  have hnSemi : ∀ c ∈ n, c ≠ ';' := fun c hc => validNameChar_ne_semi (hnc c hc)
  have hws : ∀ c ∈ n ++ '=' :: v, jsWhitespace c = false := by
    intro c hc
    rcases List.mem_append.mp hc with h | h
    · exact hnWs c h
    · rcases List.mem_cons.mp h with rfl | h
      · decide
      · exact hvWs c h
  have hsemi : ∀ c ∈ n ++ '=' :: v, c ≠ ';' := by
    intro c hc
    rcases List.mem_append.mp hc with h | h
    · exact hnSemi c h
    · rcases List.mem_cons.mp h with rfl | h
      · decide
      · exact hvSemi c h
  unfold parse
  rw [trim_eq_self hws, splitOnChar_of_no_sep hsemi]
  simp only [List.foldlM_cons, List.foldlM_nil,
    parsePair_pair filter [] hn hfil hnEq hnWs hvWs hq hval hdec,
    Option.bind_eq_bind, Option.some_bind]
  rfl

/-- The sealed string, written out as its five `*`-joined components. -/
theorem ironSeal_eq (P : CryptoProvider) (rnd : SealRnd) (v p : Str) :
    ironSeal P rnd v p =
      bytesToHex rnd.encSalt ++ '*' :: base64urlEncode rnd.iv ++ '*' ::
        base64urlEncode (P.aesCbcEncrypt
          (P.pbkdf2 p (bytesToHex rnd.encSalt) 1 (IronAlg.keyBits .aes256cbc / 8))
          rnd.iv (utf8Encode v)) ++ '*' :: bytesToHex rnd.macSalt ++ '*' ::
        base64urlEncode (P.hmacSha256
          (P.pbkdf2 p (bytesToHex rnd.macSalt) 1 (IronAlg.keyBits .sha256 / 8))
          (utf8Encode (bytesToHex rnd.encSalt ++ '*' :: base64urlEncode rnd.iv ++ '*' ::
            base64urlEncode (P.aesCbcEncrypt
              (P.pbkdf2 p (bytesToHex rnd.encSalt) 1 (IronAlg.keyBits .aes256cbc / 8))
              rnd.iv (utf8Encode v))))) := rfl

/-- Characters of a sealed value are all percent-unreserved. -/
theorem ironSeal_chars (P : CryptoProvider) (rnd : SealRnd) (v p : Str) :
    ∀ c ∈ ironSeal P rnd v p, uriUnreserved c = true := by
  intro c hc
  rw [ironSeal_eq] at hc
  simp only [List.append_assoc, List.cons_append, List.mem_append, List.mem_cons] at hc
  rcases hc with h | h | h | h | h | h | h | h | h
  · exact (bytesToHex_chars _ c h).1
  · subst h
    decide
  · exact (base64urlEncode_chars _ c h).1
  · subst h
    decide
  · exact (base64urlEncode_chars _ c h).1
  · subst h
    decide
  · exact (bytesToHex_chars _ c h).1
  · subst h
    decide
  · exact (base64urlEncode_chars _ c h).1

/-- A string of unreserved characters is fixed by `encodeURIComponent`. -/
theorem encodeURI_unreserved {s : Str} (h : ∀ c ∈ s, uriUnreserved c = true) :
    encodeURIComponent s = s := by
  induction s with
  | nil => rfl
  | cons c rest ih =>
    rw [encodeURIComponent_cons, encURIChar, if_pos (h c (List.mem_cons_self c rest)),
      ih fun c hc => h c (List.mem_cons_of_mem _ hc), List.singleton_append]

/-- The sealed string always contains a `*`. -/
theorem ironSeal_contains_star (P : CryptoProvider) (rnd : SealRnd) (v p : Str) :
    (ironSeal P rnd v p).contains '*' = true := by
  have hm : '*' ∈ ironSeal P rnd v p := by
    rw [ironSeal_eq]
    simp only [List.append_assoc, List.cons_append, List.mem_append, List.mem_cons]
    tauto
  simpa [List.contains] using hm

/-! ## Lemmas: serialization with default options -/

theorem _serialize_empty (n val : Str) : _serialize n val {} = n ++ '=' :: val := by
  simp [_serialize, truthyStr, truthyBool]

theorem unreserved_not_quote_wrapped {s : Str} (h : ∀ c ∈ s, uriUnreserved c = true) :
    ¬(s.head? = some '"' ∧ s.getLast? = some '"') := by
  rintro ⟨h1, -⟩
  have hm : '"' ∈ s := by
    cases s with
    | nil => simp at h1
    | cons a r =>
      simp only [List.head?_cons, Option.some.injEq] at h1
      exact h1 ▸ List.mem_cons_self a r
  exact uriUnreserved_ne_quote (h _ hm) rfl

/-- Parsing the serialization of one pair whose value consists of unreserved
characters recovers the raw value. -/
theorem parse_unreserved_pair {n v : Str} (filter : Option Str)
    (hn : validName n = true)
    (hfil : filter = Option.none ∨ filter = some [] ∨ filter = some n)
    (hv : ∀ c ∈ v, uriUnreserved c = true) :
    parse (n ++ '=' :: v) filter = some [(n, v)] :=
  parse_single_pair filter hn hfil
    (fun c hc => uriUnreserved_not_ws (hv c hc))
    (fun c hc => uriUnreserved_ne_semi (hv c hc))
    (unreserved_not_quote_wrapped hv)
    (by
      rw [validValue, List.all_eq_true]
      exact fun c hc => uriUnreserved_valid (hv c hc))
    (decodeURI_no_pct fun c hc => uriUnreserved_ne_pct (hv c hc))

/-! ## Claim theorems -/

/-- C1: sealed round trip. For every value and password, unsealing the result
of sealing yields the original value (given that the provider's AES decryption
inverts its encryption, ciphertexts are bytes, the IV draw is bytes, and the
salt draws are nonempty — all true of the real Web Crypto provider); and at
the facade level, serializing a sealed cookie under a token-class name with
default options and parsing it back yields the original value for that name. -/
theorem C1_sealed_round_trip (P : CryptoProvider) (rnd : SealRnd) (v p n : Str)
    (hAES : ∀ k iv d, P.aesCbcDecrypt k iv (P.aesCbcEncrypt k iv d) = some d)
    (hEncB : ∀ k iv d, (∀ b ∈ d, b < 256) → ∀ b ∈ P.aesCbcEncrypt k iv d, b < 256)
    (hIv : ∀ b ∈ rnd.iv, b < 256)
    (hSaltE : rnd.encSalt ≠ []) (hSaltM : rnd.macSalt ≠ [])
    (hn : validName n = true) :
    ironUnseal P (ironSeal P rnd v p) p = .ok v ∧
    (parseSealed P (serializeSealed P rnd n v p {}) p (some n)).map
      (fun m => lookupE m n) = some (some (.val v)) := by
  have hrt := ironUnseal_ironSeal P rnd v p hAES hEncB hIv hSaltE hSaltM
  refine ⟨hrt, ?_⟩
  have hser : serializeSealed P rnd n v p {} = n ++ '=' :: ironSeal P rnd v p := by
    unfold serializeSealed
    rw [encodeURI_unreserved (ironSeal_chars P rnd v p), _serialize_empty]
  rw [hser]
  unfold parseSealed
  rw [parse_unreserved_pair (some n) hn (Or.inr (Or.inr rfl)) (ironSeal_chars P rnd v p)]
  simp only [Option.map_some', List.foldl_cons, List.foldl_nil]
  unfold outcomeStep
  rw [show sealedOutcome P p (ironSeal P rnd v p) = some (.val v) from by
    unfold sealedOutcome
    rw [if_pos (ironSeal_contains_star P rnd v p), hrt]]
  simp [insertE, lookupE]

/-- Witness for C1 at a concrete provider, randomness, name, value and
password. -/
theorem C1_sealed_round_trip_witness :
    ironUnseal cryptoTriv
      (ironSeal cryptoTriv { encSalt := [1], iv := [2], macSalt := [3] }
        ['m', 'a'] ['p']) ['p'] = .ok ['m', 'a'] ∧
    (parseSealed cryptoTriv
      (serializeSealed cryptoTriv { encSalt := [1], iv := [2], macSalt := [3] }
        ['c'] ['m', 'a'] ['p'] {}) ['p'] (some ['c'])).map
      (fun m => lookupE m ['c']) = some (some (.val ['m', 'a'])) :=
  C1_sealed_round_trip cryptoTriv { encSalt := [1], iv := [2], macSalt := [3] }
    ['m', 'a'] ['p'] ['c'] (fun _ _ _ => rfl) (fun _ _ _ h => h) (by decide)
    (by decide) (by decide) (by decide)

/-! ## The spec-side attribute serializer (for the refinement claim) -/

def nMaxAge : Str := ['M', 'a', 'x', '-', 'A', 'g', 'e']

def nDomain : Str := ['D', 'o', 'm', 'a', 'i', 'n']

def nPath : Str := ['P', 'a', 't', 'h']

def nExpires : Str := ['E', 'x', 'p', 'i', 'r', 'e', 's']

def nSameSite : Str := ['S', 'a', 'm', 'e', 'S', 'i', 't', 'e']

def wHttpOnly : Str := ['H', 't', 't', 'p', 'O', 'n', 'l', 'y']

def wSecure : Str := ['S', 'e', 'c', 'u', 'r', 'e']

def wPartitioned : Str := ['P', 'a', 'r', 't', 'i', 't', 'i', 'o', 'n', 'e', 'd']

/-- Modelled from the spec's words (§4.1): the attributes present in the
options, in the fixed order Max-Age, Domain, Path, Expires, HttpOnly, Secure,
SameSite, Partitioned; `Max-Age=⌊maxAge⌋` only when `maxAge` is a non-negative
number; a string-valued attribute is "present" when it is supplied and
non-empty (an empty string is no attribute). -/
def specAttrList (o : CookieOptions) : List Str :=
  (match o.maxAge with
   | some m => if 0 ≤ m then [nMaxAge ++ '=' :: natToDec (Int.floor m).toNat] else []
   | Option.none => [])
  ++ (match truthyStr o.domain with
      | some d => [nDomain ++ '=' :: d]
      | Option.none => [])
  ++ (match truthyStr o.path with
      | some p => [nPath ++ '=' :: p]
      | Option.none => [])
  ++ (match o.expires with
      | some d => [nExpires ++ '=' :: d.utcString]
      | Option.none => [])
  ++ (if truthyBool o.httpOnly then [wHttpOnly] else [])
  ++ (if truthyBool o.secure then [wSecure] else [])
  ++ (match o.sameSite with
      | some ss => [nSameSite ++ '=' :: ss.render]
      | Option.none => [])
  ++ (if truthyBool o.partitioned then [wPartitioned] else [])

/-- Modelled from the spec's words (§4.1): percent-encode the value, emit
`name=value`, then each present attribute as `; <attribute>`. -/
def serializeSpec (name value : Str) (o : CookieOptions) : Str :=
  name ++ '=' :: encodeURIComponent value ++
    (specAttrList o).flatMap (fun a => ';' :: ' ' :: a)

/-- The source serializer agrees with the spec-side serializer. -/
theorem serialize_eq_spec (n v : Str) (o : CookieOptions) :
    serialize n v o = serializeSpec n v o := by
  have e1 : (match o.maxAge with
      | some m => if 0 ≤ m then sMaxAge ++ natToDec (Int.floor m).toNat else []
      | Option.none => []) =
      (match o.maxAge with
       | some m => if 0 ≤ m then [nMaxAge ++ '=' :: natToDec (Int.floor m).toNat] else []
       | Option.none => ([] : List Str)).flatMap (fun a => ';' :: ' ' :: a) := by
    cases o.maxAge with
    | none => rfl
    | some m =>
      dsimp only
      by_cases h0 : 0 ≤ m
      · rw [if_pos h0]
        simp [sMaxAge, nMaxAge, h0]
      · rw [if_neg h0]
        simp [h0]
  have e2 : (match truthyStr o.domain with
      | some d => sDomain ++ d
      | Option.none => []) =
      (match truthyStr o.domain with
       | some d => [nDomain ++ '=' :: d]
       | Option.none => ([] : List Str)).flatMap (fun a => ';' :: ' ' :: a) := by
    cases truthyStr o.domain with
    | none => rfl
    | some d => simp [sDomain, nDomain]
  have e3 : (match truthyStr o.path with
      | some p => sPath ++ p
      | Option.none => []) =
      (match truthyStr o.path with
       | some p => [nPath ++ '=' :: p]
       | Option.none => ([] : List Str)).flatMap (fun a => ';' :: ' ' :: a) := by
    cases truthyStr o.path with
    | none => rfl
    | some p => simp [sPath, nPath]
  have e4 : (match o.expires with
      | some d => sExpires ++ d.utcString
      | Option.none => []) =
      (match o.expires with
       | some d => [nExpires ++ '=' :: d.utcString]
       | Option.none => ([] : List Str)).flatMap (fun a => ';' :: ' ' :: a) := by
    cases o.expires with
    | none => rfl
    | some d => simp [sExpires, nExpires]
  have e5 : (if truthyBool o.httpOnly then sHttpOnly else []) =
      (if truthyBool o.httpOnly then [wHttpOnly] else ([] : List Str)).flatMap
        (fun a => ';' :: ' ' :: a) := by
    by_cases h : truthyBool o.httpOnly
    · rw [if_pos h, if_pos h]
      simp [sHttpOnly, wHttpOnly]
    · rw [if_neg h, if_neg h]
      rfl
  have e6 : (if truthyBool o.secure then sSecure else []) =
      (if truthyBool o.secure then [wSecure] else ([] : List Str)).flatMap
        (fun a => ';' :: ' ' :: a) := by
    by_cases h : truthyBool o.secure
    · rw [if_pos h, if_pos h]
      simp [sSecure, wSecure]
    · rw [if_neg h, if_neg h]
      rfl
  have e7 : (match o.sameSite with
      | some ss => sSameSite ++ ss.render
      | Option.none => []) =
      (match o.sameSite with
       | some ss => [nSameSite ++ '=' :: ss.render]
       | Option.none => ([] : List Str)).flatMap (fun a => ';' :: ' ' :: a) := by
    cases o.sameSite with
    | none => rfl
    | some ss => simp [sSameSite, nSameSite]
  have e8 : (if truthyBool o.partitioned then sPartitioned else []) =
      (if truthyBool o.partitioned then [wPartitioned] else ([] : List Str)).flatMap
        (fun a => ';' :: ' ' :: a) := by
    by_cases h : truthyBool o.partitioned
    · rw [if_pos h, if_pos h]
      simp [sPartitioned, wPartitioned]
    · rw [if_neg h, if_neg h]
      rfl
  unfold serialize _serialize serializeSpec specAttrList
  rw [e1, e2, e3, e4, e5, e6, e7, e8]
  simp only [List.flatMap_append, List.append_assoc, List.cons_append]

/-! ## Lemmas: the signed/sealed loops as per-entry outcomes -/

/-- `parseSigned` looked up at one key: the parsed value piped through
`signedOutcome`. -/
theorem parseSigned_lookup (P : CryptoProvider) (cookie secret : Str)
    (filter : Option Str) {m : Entries Str} (k : Str)
    (hm : parse cookie filter = some m) :
    (parseSigned P cookie secret filter).map (fun r => lookupE r k) =
      some ((lookupE m k).bind (signedOutcome P (utf8Encode secret))) := by
  unfold parseSigned
  rw [hm]
  simp only [Option.map_some']
  congr 1
  refine Eq.trans (lookupE_foldl_outcome (signedOutcome P (utf8Encode secret)) m k
    (parse_props hm).2 []) ?_
  cases lookupE m k with
  | none => rfl
  | some v =>
    cases ho : signedOutcome P (utf8Encode secret) v with
    | none => simp [ho, lookupE]
    | some r => simp [ho]

/-- `parseSealed` looked up at one key: the parsed value piped through
`sealedOutcome`. -/
theorem parseSealed_lookup (P : CryptoProvider) (cookie secret : Str)
    (filter : Option Str) {m : Entries Str} (k : Str)
    (hm : parse cookie filter = some m) :
    (parseSealed P cookie secret filter).map (fun r => lookupE r k) =
      some ((lookupE m k).bind (sealedOutcome P secret)) := by
  unfold parseSealed
  rw [hm]
  simp only [Option.map_some']
  congr 1
  refine Eq.trans (lookupE_foldl_outcome (sealedOutcome P secret) m k
    (parse_props hm).2 []) ?_
  cases lookupE m k with
  | none => rfl
  | some v =>
    cases ho : sealedOutcome P secret v with
    | none => simp [ho, lookupE]
    | some r => simp [ho]

/-- `unseal` throws "Incorrect number of sealed components" whenever the
`*`-split does not have exactly 5 fields, before touching any cryptography. -/
theorem ironUnseal_arity (P : CryptoProvider) {sealedStr : Str} (password : Str)
    (h : (splitOnChar '*' sealedStr).length ≠ 5) :
    ironUnseal P sealedStr password = .error .wrongComponents := by
  unfold ironUnseal
  split
  · rename_i a b c d e heq
    exact absurd (by rw [heq]; rfl) h
  · rfl

/-! ## The claims -/

/-- C8: `fixedTimeComparison` returns `true` exactly when the two strings are
equal (functional correctness of the constant-time comparison, including the
`b = a` swap on a length mismatch). -/
theorem C8_fixed_time_comparison_correct (a b : Str) :
    fixedTimeComparison a b = true ↔ a = b :=
  fixedTimeComparison_eq_iff a b

/-- C8 witness. -/
theorem C8_fixed_time_comparison_correct_witness :
    fixedTimeComparison ['h', 'i'] ['h', 'i'] = true ∧
      fixedTimeComparison ['h', 'i'] ['h', 'o'] ≠ true :=
  ⟨(C8_fixed_time_comparison_correct ['h', 'i'] ['h', 'i']).mpr rfl,
   fun h => by cases (C8_fixed_time_comparison_correct ['h', 'i'] ['h', 'o']).mp h⟩

/-- C2 (refuting the claim that `parse` never throws): on the header `"a=%"`
the pair passes the name and value checks and reaches the unguarded
`decodeURIComponent`, whose `URIError` (modeled by `none`) propagates out of
`parse`. -/
theorem C2_parse_throws_on_bad_percent :
    parse ['a', '=', '%'] Option.none = Option.none := by decide

/-- C9: a pair with an empty value, `"n="`, parses to the entry `n ↦ ""`, and
`getCookie(headers, n)` returns the empty string (not `undefined`). -/
theorem C9_empty_value_kept (n : Str) (hn : validName n = true) :
    parse (n ++ ['=']) Option.none = some [(n, [])] ∧
      getCookieKey (some (n ++ ['='])) n = some (some []) := by
  have hone : ∀ filter : Option Str,
      filter = Option.none ∨ filter = some [] ∨ filter = some n →
      parse (n ++ ['=']) filter = some [(n, [])] := by
    intro filter hfil
    exact parse_single_pair (n := n) (v := []) (w := []) filter hn hfil
      (by intro c hc; cases hc) (by intro c hc; cases hc)
      (by simp) rfl rfl
  have h1 : parse (n ++ ['=']) Option.none = some [(n, [])] :=
    hone Option.none (Or.inl rfl)
  refine ⟨h1, ?_⟩
  have hne : n ++ ['='] ≠ [] := by
    intro h
    exact absurd (congrArg List.length h) (by simp)
  have htr : truthyStr (some (n ++ ['='])) = some (n ++ ['=']) := by
    unfold truthyStr
    dsimp only
    rw [isEmpty_false_of_ne_nil hne]
    simp
  unfold getCookieKey
  rw [htr]
  dsimp only
  rw [hone (some n) (Or.inr (Or.inr rfl))]
  simp [lookupE]

/-- C9 witness. -/
theorem C9_empty_value_kept_witness :
    parse ['a', '='] Option.none = some [(['a'], [])] ∧
      getCookieKey (some ['a', '=']) ['a'] = some (some []) :=
  C9_empty_value_kept ['a'] (by decide)

/-- C3 counterexample (refuting "returns `undefined`"): with the key present
in neither map, `getSignedCookie` and `getSealedCookie` both return `false`
(`obj[key] ?? false`), not `undefined`. -/
theorem C3_counterexample_missing_key_false :
    getSignedCookieKey cryptoTriv (some ['a', '=', 'b']) ['s'] ['z'] = some .fls ∧
      getSealedCookieKey cryptoTriv (some ['a', '=', 'b']) ['s'] ['z'] = some .fls := by
  decide

/-- C3 (corrected): when the requested key is absent from the parsed signed or
sealed map, and likewise when the Cookie header itself is missing or empty,
the keyed getters return `false` — never `undefined`; the unkeyed getters
return the empty object on a missing header. -/
theorem C3_get_cookie_missing_key (P : CryptoProvider) (h : Option Str)
    (secret key : Str) :
    (∀ c m, truthyStr h = some c →
      parseSigned P c secret (some key) = some m → lookupE m key = Option.none →
      getSignedCookieKey P h secret key = some .fls) ∧
    (truthyStr h = Option.none → getSignedCookieKey P h secret key = some .fls) ∧
    (truthyStr h = Option.none → getSignedCookieAll P h secret = some []) ∧
    (∀ c m, truthyStr h = some c →
      parseSealed P c secret (some key) = some m → lookupE m key = Option.none →
      getSealedCookieKey P h secret key = some .fls) ∧
    (truthyStr h = Option.none → getSealedCookieKey P h secret key = some .fls) ∧
    (truthyStr h = Option.none → getSealedCookieAll P h secret = some []) := by
  refine ⟨?_, ?_, ?_, ?_, ?_, ?_⟩
  · intro c m hc hp hl
    unfold getSignedCookieKey
    rw [hc]
    dsimp only
    rw [hp]
    simp [hl]
  · intro hc
    unfold getSignedCookieKey
    rw [hc]
  · intro hc
    unfold getSignedCookieAll
    rw [hc]
  · intro c m hc hp hl
    unfold getSealedCookieKey
    rw [hc]
    dsimp only
    rw [hp]
    simp [hl]
  · intro hc
    unfold getSealedCookieKey
    rw [hc]
  · intro hc
    unfold getSealedCookieAll
    rw [hc]

/-- C3 witness. -/
theorem C3_get_cookie_missing_key_witness :
    getSignedCookieKey cryptoTriv (some ['a', '=', 'b']) ['s'] ['w'] = some .fls ∧
      getSealedCookieAll cryptoTriv Option.none ['s'] = some [] :=
  ⟨(C3_get_cookie_missing_key cryptoTriv (some ['a', '=', 'b']) ['s'] ['w']).1
      ['a', '=', 'b'] [] (by decide) (by decide) (by decide),
   (C3_get_cookie_missing_key cryptoTriv Option.none ['s'] ['w']).2.2.2.2.2 rfl⟩

/-- C4 counterexample (refuting "absent from the result"): a parsed value that
does contain a `*` but splits into other than 5 fields is *present* in the
result as `false` — `unseal` throws, `.catch(() => false)` keeps the key. -/
theorem C4_counterexample_wrong_arity_present :
    parseSealed cryptoTriv ['a', '=', 'x', '*', 'y'] ['s'] Option.none =
      some [(['a'], .fls)] := by decide

/-- C4 (corrected): only values with no `*` at all are skipped (absent from
the result); a value containing `*` whose `*`-split does not have exactly 5
fields is present and maps to `false`, for every crypto provider (the arity
throw happens before any cryptography). -/
theorem C4_sealed_only_starless_dropped (P : CryptoProvider) (cookie secret : Str)
    (filter : Option Str) (m : Entries Str) (k v : Str)
    (hm : parse cookie filter = some m) (hv : lookupE m k = some v) :
    (v.contains '*' = false →
      (parseSealed P cookie secret filter).map (fun r => lookupE r k) =
        some Option.none) ∧
    (v.contains '*' = true → (splitOnChar '*' v).length ≠ 5 →
      (parseSealed P cookie secret filter).map (fun r => lookupE r k) =
        some (some .fls)) := by
  constructor
  · intro hstar
    rw [parseSealed_lookup P cookie secret filter k hm, hv]
    simp only [Option.some_bind]
    unfold sealedOutcome
    rw [if_neg (by simpa using hstar)]
  · intro hstar harity
    rw [parseSealed_lookup P cookie secret filter k hm, hv]
    simp only [Option.some_bind]
    unfold sealedOutcome
    rw [ironUnseal_arity P secret harity, if_pos hstar]

/-- C4 witness. -/
theorem C4_sealed_only_starless_dropped_witness :
    (parseSealed cryptoTriv ['a', '=', 'b'] ['s'] Option.none).map
      (fun r => lookupE r ['a']) = some Option.none ∧
    (parseSealed cryptoTriv ['a', '=', 'y', '*', 'z'] ['s'] Option.none).map
      (fun r => lookupE r ['a']) = some (some .fls) :=
  ⟨(C4_sealed_only_starless_dropped cryptoTriv ['a', '=', 'b'] ['s'] Option.none
      [(['a'], ['b'])] ['a'] ['b'] (by decide) (by decide)).1 (by decide),
   (C4_sealed_only_starless_dropped cryptoTriv ['a', '=', 'y', '*', 'z'] ['s']
      Option.none [(['a'], ['y', '*', 'z'])] ['a'] ['y', '*', 'z'] (by decide)
      (by decide)).2 (by decide) (by decide)⟩

/-- C5: the three-way asymmetry of `parseSigned` on a parsed value: no `.` at
a positive index — entry absent; signature part not exactly 44 characters
ending in `=` — entry absent; well-shaped signature — entry present, the
value prefix if verification succeeds and `false` if it fails. -/
theorem C5_signed_value_asymmetry (P : CryptoProvider) (cookie secret k : Str)
    (m : Entries Str) (v : Str)
    (hm : parse cookie Option.none = some m) (hv : lookupE m k = some v) :
    (lastIndexOfChar v '.' < 1 →
      (parseSigned P cookie secret Option.none).map (fun r => lookupE r k) =
        some Option.none) ∧
    (1 ≤ lastIndexOfChar v '.' →
      ((v.drop ((lastIndexOfChar v '.').toNat + 1)).length ≠ 44 ∨
          (v.drop ((lastIndexOfChar v '.').toNat + 1)).getLast? ≠ some '=' →
        (parseSigned P cookie secret Option.none).map (fun r => lookupE r k) =
          some Option.none) ∧
      ((v.drop ((lastIndexOfChar v '.').toNat + 1)).length = 44 →
        (v.drop ((lastIndexOfChar v '.').toNat + 1)).getLast? = some '=' →
        (parseSigned P cookie secret Option.none).map (fun r => lookupE r k) =
          some (some (if verifySignature P
              (v.drop ((lastIndexOfChar v '.').toNat + 1))
              (v.take (lastIndexOfChar v '.').toNat) (utf8Encode secret) = true
            then MaybeCookie.val (v.take (lastIndexOfChar v '.').toNat)
            else MaybeCookie.fls)))) := by
  have hPS := parseSigned_lookup P cookie secret Option.none k hm
  refine ⟨?_, fun hge => ⟨?_, ?_⟩⟩
  · intro hlt
    rw [hPS, hv]
    simp only [Option.some_bind]
    unfold signedOutcome
    dsimp only
    rw [if_pos hlt]
  · intro hsig
    rw [hPS, hv]
    simp only [Option.some_bind]
    unfold signedOutcome
    dsimp only
    rw [if_neg (not_lt.mpr hge), if_pos hsig]
  · intro hlen hlast
    rw [hPS, hv]
    simp only [Option.some_bind]
    unfold signedOutcome
    dsimp only
    rw [if_neg (not_lt.mpr hge), if_neg (by simp [hlen, hlast])]

/-- C5 witness: the verification-success branch at a concrete provider. -/
theorem C5_signed_value_asymmetry_witness :
    (parseSigned cryptoTriv
        (['a', '='] ++ ['v', '.'] ++ List.replicate 43 'A' ++ ['='])
        ['s'] Option.none).map (fun r => lookupE r ['a']) =
      some (some (.val ['v'])) := by
  have h := (C5_signed_value_asymmetry cryptoTriv
      (['a', '='] ++ ['v', '.'] ++ List.replicate 43 'A' ++ ['=']) ['s'] ['a']
      [(['a'], ['v', '.'] ++ List.replicate 43 'A' ++ ['='])]
      (['v', '.'] ++ List.replicate 43 'A' ++ ['=']) (by decide) (by decide)).2
      (by decide)
  rw [h.2 (by decide) (by decide)]
  decide

/-- C7: `serialize` emits `name=value` and then exactly the present attributes
in the fixed order Max-Age (floored), Domain, Path, Expires, HttpOnly, Secure,
SameSite, Partitioned, each prefixed by `"; "` — the refinement against the
spec-shaped serializer. -/
theorem C7_serialize_attribute_order (n v : Str) (o : CookieOptions) :
    serialize n v o = serializeSpec n v o :=
  serialize_eq_spec n v o

/-- C10: `serialize` never validates the name: for every name (token-class or
not) the output starts with `name=encodedValue`; and the round trip fails for
an invalid name because `parse` never yields such a name as a key. -/
theorem C10_serialize_skips_name_validation :
    (∀ (name v : Str) (o : CookieOptions),
      List.IsPrefix (name ++ '=' :: encodeURIComponent v) (serialize name v o)) ∧
    (∀ (name v : Str) (o : CookieOptions) (m : Entries Str),
      validName name = false → parse (serialize name v o) Option.none = some m →
      lookupE m name = Option.none) := by
  constructor
  · intro name v o
    rw [serialize_eq_spec]
    unfold serializeSpec
    refine ⟨(specAttrList o).flatMap (fun a => ';' :: ' ' :: a), ?_⟩
    simp [List.append_assoc]
  · intro name v o m hname hm
    by_contra hne
    have hmem : name ∈ keysE m := by
      by_contra hnm
      exact hne ((lookupE_eq_none_iff m name).mpr hnm)
    exact absurd ((parse_props hm).1 name hmem) (by simp [hname])

/-- C10 witness: a name with a space. -/
theorem C10_serialize_skips_name_validation_witness :
    List.IsPrefix (['b', ' ', 'n'] ++ '=' :: encodeURIComponent ['x'])
      (serialize ['b', ' ', 'n'] ['x'] {}) ∧
    lookupE ([] : Entries Str) ['b', ' ', 'n'] = Option.none :=
  ⟨C10_serialize_skips_name_validation.1 ['b', ' ', 'n'] ['x'] {},
   C10_serialize_skips_name_validation.2 ['b', ' ', 'n'] ['x'] {} [] (by decide)
     (by decide)⟩

/-! ## Lemmas for the general-options plain round trip (C6) -/

theorem dropWhile_append_cons {p : Char → Bool} {y : Char} (hy : p y = false)
    (A B : Str) : List.dropWhile p (A ++ y :: B) = List.dropWhile p A ++ y :: B := by
  induction A with
  | nil => simp [List.dropWhile_cons, hy]
  | cons a A' ih =>
    by_cases ha : p a
    · simp [List.dropWhile_cons, ha, ih]
    · simp [List.dropWhile_cons, ha]

theorem mem_dropWhile {p : Char → Bool} {s : Str} {c : Char}
    (h : c ∈ List.dropWhile p s) : c ∈ s :=
  (List.dropWhile_sublist p).subset h

theorem mem_trim' {s : Str} {c : Char} (h : c ∈ trim s) : c ∈ s := by
  unfold trim at h
  rw [List.mem_reverse] at h
  have h2 := mem_dropWhile h
  rw [List.mem_reverse] at h2
  exact mem_dropWhile h2

/-- The end-trim alone (what `trim` does once the front is clean). -/
def trimEnd (s : Str) : Str := (s.reverse.dropWhile jsWhitespace).reverse

theorem mem_trimEnd {s : Str} {c : Char} (h : c ∈ trimEnd s) : c ∈ s := by
  unfold trimEnd at h
  rw [List.mem_reverse] at h
  have h2 := mem_dropWhile h
  rwa [List.mem_reverse] at h2

theorem getLast_cons_cases {a c : Char} {l : Str} (h : (a :: l).getLast? = some c) :
    (l = [] ∧ c = a) ∨ l.getLast? = some c := by
  cases l with
  | nil =>
    left
    refine ⟨rfl, ?_⟩
    have : some a = some c := h
    exact (Option.some.inj this).symm
  | cons b t =>
    right
    rwa [List.getLast?_cons_cons] at h

theorem getLast_append_cases {X Y : Str} {c : Char}
    (h : (X ++ Y).getLast? = some c) :
    (Y = [] ∧ X.getLast? = some c) ∨ Y.getLast? = some c := by
  cases hY : Y with
  | nil =>
    subst hY
    rw [List.append_nil] at h
    exact Or.inl ⟨rfl, h⟩
  | cons y t =>
    subst hY
    right
    rwa [List.getLast?_append_cons] at h

theorem getLast_mem {l : Str} {c : Char} (h : l.getLast? = some c) : c ∈ l := by
  induction l with
  | nil => cases h
  | cons a t ih =>
    rcases getLast_cons_cases h with ⟨rfl, rfl⟩ | h2
    · exact List.mem_cons_self _ _
    · exact List.mem_cons_of_mem _ (ih h2)

theorem trimEnd_eq_self {s : Str}
    (h : ∀ c, s.getLast? = some c → jsWhitespace c = false) : trimEnd s = s := by
  unfold trimEnd
  cases hrev : s.reverse with
  | nil =>
    have : s = [] := by
      have := congrArg List.reverse hrev
      rwa [List.reverse_reverse] at this
    simp [this]
  | cons z t =>
    have hz : s.getLast? = some z := by
      rw [← List.head?_reverse, hrev]
      rfl
    rw [List.dropWhile_cons_of_neg (by simp [h z hz])]
    rw [← hrev, List.reverse_reverse]

theorem getLast_flatMap_pred {P : Char → Prop} {f : Str → Str} :
    ∀ l : List Str, (∀ a ∈ l, ∀ c, (f a).getLast? = some c → P c) →
      ∀ c, (l.flatMap f).getLast? = some c → P c := by
  intro l
  induction l with
  | nil =>
    intro _ c hc
    cases hc
  | cons a t ih =>
    intro h c hc
    rw [List.flatMap_cons] at hc
    rcases getLast_append_cases hc with ⟨_, hA⟩ | h2
    · exact h a (List.mem_cons_self _ _) c hA
    · exact ih (fun a ha => h a (List.mem_cons_of_mem _ ha)) c h2

theorem digit_not_ws {c : Char} (h1 : 48 ≤ c.toNat) (h2 : c.toNat ≤ 57) :
    jsWhitespace c = false := by
  by_contra hw
  rw [Bool.not_eq_false] at hw
  rcases mem_wsChars_cases hw with rfl | rfl | rfl | rfl | rfl | rfl | rfl | rfl <;>
    revert h1 h2 <;> decide

theorem decChar_comp : ∀ x, x < 10 →
    48 ≤ (Char.ofNat (48 + x)).toNat ∧ (Char.ofNat (48 + x)).toNat ≤ 57 := by decide

theorem decDigitsAux_chars :
    ∀ (fuel n : Nat) (acc : Str), (∀ c ∈ acc, 48 ≤ c.toNat ∧ c.toNat ≤ 57) →
      ∀ c ∈ decDigitsAux fuel n acc, 48 ≤ c.toNat ∧ c.toNat ≤ 57 := by
  intro fuel
  induction fuel with
  | zero => intro n acc hacc; exact hacc
  | succ f ih =>
    intro n acc hacc c hc
    rw [decDigitsAux] at hc
    by_cases hn : n = 0
    · rw [if_pos hn] at hc
      exact hacc c hc
    · rw [if_neg hn] at hc
      refine ih (n / 10) _ ?_ c hc
      intro d hd
      rcases List.mem_cons.mp hd with rfl | hd2
      · exact decChar_comp _ (Nat.mod_lt _ (by omega))
      · exact hacc d hd2

theorem natToDec_chars (n : Nat) :
    ∀ c ∈ natToDec n, 48 ≤ c.toNat ∧ c.toNat ≤ 57 := by
  intro c hc
  unfold natToDec at hc
  by_cases hn : n = 0
  · rw [if_pos hn] at hc
    rcases List.mem_singleton.mp hc with rfl
    exact ⟨by decide, by decide⟩
  · rw [if_neg hn] at hc
    exact decDigitsAux_chars (n + 1) n [] (by intro d hd; cases hd) c hc

/-- The end of the string is preserved by `trim` of an append whose left part
starts and ends with non-whitespace. -/
theorem trim_append_p0 {a z : Char} {p0 t R : Str}
    (hcons : ∃ p0r, p0 = a :: p0r) (ha : jsWhitespace a = false)
    (hrev : p0.reverse = z :: t) (hz : jsWhitespace z = false) :
    trim (p0 ++ R) = p0 ++ trimEnd R := by
  obtain ⟨p0r, rfl⟩ := hcons
  unfold trim
  rw [List.cons_append, List.dropWhile_cons_of_neg (by simp [ha]), ← List.cons_append]
  rw [List.reverse_append, hrev, dropWhile_append_cons hz, List.reverse_append]
  rw [show (z :: t).reverse = a :: p0r from by rw [← hrev, List.reverse_reverse]]
  rfl

theorem trim_cons_ws {c : Char} (hc : jsWhitespace c = true) (s : Str) :
    trim (c :: s) = trim s := by
  unfold trim
  rw [List.dropWhile_cons_of_pos (by simp [hc])]

/-- Characters of a percent-encoded value: always in the cookie value class,
never whitespace, `;` or `"`. -/
theorem encodeURI_chars (s : Str) :
    ∀ c ∈ encodeURIComponent s, validValueChar c = true ∧ jsWhitespace c = false ∧
      c ≠ ';' ∧ c ≠ '"' := by
  have hhex : ∀ x, x < 16 → validValueChar (hexCharUpper x) = true ∧
      jsWhitespace (hexCharUpper x) = false ∧ hexCharUpper x ≠ ';' ∧
      hexCharUpper x ≠ '"' := by decide
  intro c hc
  unfold encodeURIComponent at hc
  rw [List.mem_flatMap] at hc
  obtain ⟨x, _, hcx⟩ := hc
  unfold encURIChar at hcx
  by_cases hu : uriUnreserved x = true
  · rw [if_pos hu] at hcx
    rcases List.mem_singleton.mp hcx with rfl
    exact ⟨uriUnreserved_valid hu, uriUnreserved_not_ws hu, uriUnreserved_ne_semi hu,
      uriUnreserved_ne_quote hu⟩
  · rw [if_neg hu] at hcx
    unfold utf8EncodeNat at hcx
    rw [List.mem_flatMap] at hcx
    obtain ⟨b, _, hcb⟩ := hcx
    unfold pctByte at hcb
    rcases List.mem_cons.mp hcb with rfl | hcb
    · exact ⟨by decide, by decide, by decide, by decide⟩
    rcases List.mem_cons.mp hcb with rfl | hcb
    · exact hhex _ (Nat.mod_lt _ (by omega))
    rcases List.mem_cons.mp hcb with rfl | hcb
    · exact hhex _ (Nat.mod_lt _ (by omega))
    · cases hcb

/-- Whether a string's last character is not JS whitespace (true for the
empty string) — a decidable cleanliness condition on option values. -/
def lastNotWs (s : Str) : Bool :=
  match s.getLast? with
  | some c => !jsWhitespace c
  | Option.none => true

theorem lastNotWs_spec {s : Str} (h : lastNotWs s = true) :
    ∀ c, s.getLast? = some c → jsWhitespace c = false := by
  intro c hc
  unfold lastNotWs at h
  rw [hc] at h
  simpa using h

/-- A cookie-string chunk is harmless for key `n`: `parsePair` on it succeeds
and does not change what `n` maps to. -/
def ChunkOK (n ch : Str) : Prop :=
  ∀ acc, ∃ acc', parsePair Option.none acc ch = some acc' ∧
    lookupE acc' n = lookupE acc n

/-- A `=`-free chunk (a boolean attribute like `HttpOnly`) is skipped. -/
theorem chunkOK_flag {n w : Str} (hw : ∀ c ∈ w, c ≠ '=') : ChunkOK n (' ' :: w) := by
  intro acc
  refine ⟨acc, ?_, rfl⟩
  simp only [parsePair]
  rw [indexOfChar_eq_none_of (fun c hc => ?_)]
  have hc2 := mem_trim' hc
  rcases List.mem_cons.mp hc2 with rfl | hc3
  · decide
  · exact hw c hc3

/-- An attribute chunk `" name=value"` with a token-class attribute name other
than `n` and a `%`-free value is processed without a throw and without
touching what `n` maps to. -/
theorem chunkOK_attr {n aname aval : Str}
    (hname : validName aname = true) (hne : aname ≠ n)
    (hpct : ∀ c ∈ aval, c ≠ '%') :
    ChunkOK n (' ' :: aname ++ '=' :: aval) := by
  intro acc
  have hnc := validName_all hname
  have hnWs : ∀ c ∈ aname, jsWhitespace c = false :=
    fun c hc => validNameChar_not_ws (hnc c hc)
  have hnEq : ∀ c ∈ aname, c ≠ '=' := fun c hc => validNameChar_ne_eq (hnc c hc)
  obtain ⟨a0, arest, rfl⟩ : ∃ a0 arest, aname = a0 :: arest := by
    cases aname with
    | nil => exact absurd hname (by decide)
    | cons a0 arest => exact ⟨a0, arest, rfl⟩
  have htrim : trim (' ' :: (a0 :: arest) ++ '=' :: aval) =
      (a0 :: arest) ++ '=' :: trimEnd aval := by
    rw [show (' ' :: (a0 :: arest) ++ '=' :: aval : Str) =
      ' ' :: ((a0 :: arest) ++ '=' :: aval) from rfl]
    rw [trim_cons_ws (by decide)]
    rw [show ((a0 :: arest) ++ '=' :: aval : Str) =
      ((a0 :: arest) ++ ['=']) ++ aval from by simp]
    rw [trim_append_p0 ⟨arest ++ ['='], by simp⟩
      (hnWs a0 (List.mem_cons_self _ _))
      (by simp : ((a0 :: arest) ++ ['='] : Str).reverse = '=' :: (a0 :: arest).reverse)
      (by decide)]
    simp
  have htake : ((a0 :: arest) ++ '=' :: trimEnd aval).take (a0 :: arest).length =
      a0 :: arest := List.take_left _ _
  have hdrop : ((a0 :: arest) ++ '=' :: trimEnd aval).drop ((a0 :: arest).length + 1) =
      trimEnd aval := by
    have h2 : (a0 :: arest) ++ '=' :: trimEnd aval =
        ((a0 :: arest) ++ ['=']) ++ trimEnd aval := by simp
    have h3 : (a0 :: arest).length + 1 = ((a0 :: arest) ++ ['=']).length := by simp
    rw [h2, h3, List.drop_left]
  simp only [parsePair]
  rw [htrim, indexOfChar_append_of hnEq]
  dsimp only
  rw [htake, hdrop, trim_eq_self hnWs]
  rw [show filterTest Option.none (a0 :: arest) = false from rfl]
  rw [hname]
  simp only [Bool.not_true, Bool.or_false]
  rw [if_neg Bool.false_ne_true]
  have hsub : ∀ c ∈ trim (trimEnd aval), c ∈ aval :=
    fun c hc => mem_trimEnd (mem_trim' hc)
  by_cases hqq : (List.head? (trim (trimEnd aval)) == some '"' &&
      List.getLast? (trim (trimEnd aval)) == some '"') = true
  · rw [if_pos hqq]
    have hsub2 : ∀ c ∈ ((trim (trimEnd aval)).drop 1).dropLast, c ∈ aval :=
      fun c hc => hsub c ((List.drop_subset _ _) ((List.dropLast_subset _) hc))
    by_cases hvv : validValue (((trim (trimEnd aval)).drop 1).dropLast) = true
    · rw [if_pos hvv, decodeURI_no_pct (fun c hc => hpct c (hsub2 c hc))]
      exact ⟨_, rfl, lookupE_insertE_ne acc _ (fun he => hne he)⟩
    · rw [if_neg hvv]
      exact ⟨acc, rfl, rfl⟩
  · rw [if_neg hqq]
    by_cases hvv : validValue (trim (trimEnd aval)) = true
    · rw [if_pos hvv, decodeURI_no_pct (fun c hc => hpct c (hsub c hc))]
      exact ⟨_, rfl, lookupE_insertE_ne acc _ (fun he => hne he)⟩
    · rw [if_neg hvv]
      exact ⟨acc, rfl, rfl⟩

/-- Folding `parsePair` over harmless chunks succeeds and preserves `n`. -/
theorem foldlM_chunks {n : Str} :
    ∀ cs : List Str, (∀ ch ∈ cs, ChunkOK n ch) →
      ∀ acc, ∃ m', cs.foldlM (parsePair Option.none) acc = some m' ∧
        lookupE m' n = lookupE acc n := by
  intro cs
  induction cs with
  | nil =>
    intro _ acc
    exact ⟨acc, rfl, rfl⟩
  | cons c rest ih =>
    intro h acc
    obtain ⟨acc', hstep, hpres⟩ := h c (List.mem_cons_self _ _) acc
    obtain ⟨m', hfold, hpres'⟩ := ih (fun c hc => h c (List.mem_cons_of_mem _ hc)) acc'
    refine ⟨m', ?_, hpres'.trans hpres⟩
    rw [List.foldlM_cons, hstep]
    simpa [Option.bind_eq_bind] using hfold

theorem digit_ne_semi {c : Char} (h : 48 ≤ c.toNat ∧ c.toNat ≤ 57) : c ≠ ';' := by
  intro he
  subst he
  revert h
  decide

theorem digit_ne_pct {c : Char} (h : 48 ≤ c.toNat ∧ c.toNat ≤ 57) : c ≠ '%' := by
  intro he
  subst he
  revert h
  decide

theorem truthyStr_some {x : Option Str} {d : Str} (h : truthyStr x = some d) :
    x.getD [] = d := by
  cases x with
  | none => cases h
  | some s =>
    unfold truthyStr at h
    dsimp only at h
    by_cases he : s.isEmpty
    · rw [if_pos he] at h
      cases h
    · rw [if_neg he] at h
      exact Option.some.inj h

/-- Every member of `specAttrList` is one of the eight attribute shapes. -/
theorem specAttr_cases (o : CookieOptions) {a : Str} (ha : a ∈ specAttrList o) :
    (∃ q : ℚ, o.maxAge = some q ∧ a = nMaxAge ++ '=' :: natToDec (Int.floor q).toNat) ∨
    (∃ d, truthyStr o.domain = some d ∧ a = nDomain ++ '=' :: d) ∨
    (∃ p, truthyStr o.path = some p ∧ a = nPath ++ '=' :: p) ∨
    (∃ e, o.expires = some e ∧ a = nExpires ++ '=' :: e.utcString) ∨
    a = wHttpOnly ∨ a = wSecure ∨
    (∃ ss : SameSiteOpt, o.sameSite = some ss ∧ a = nSameSite ++ '=' :: ss.render) ∨
    a = wPartitioned := by
  unfold specAttrList at ha
  simp only [List.mem_append] at ha
  rcases ha with (((((((h | h) | h) | h) | h) | h) | h) | h)
  · cases hq : o.maxAge with
    | none =>
      rw [hq] at h
      simp at h
    | some q =>
      rw [hq] at h
      dsimp only at h
      by_cases h0 : (0 : ℚ) ≤ q
      · rw [if_pos h0] at h
        rcases List.mem_singleton.mp h with rfl
        exact Or.inl ⟨q, rfl, rfl⟩
      · rw [if_neg h0] at h
        simp at h
  · cases hd : truthyStr o.domain with
    | none =>
      rw [hd] at h
      simp at h
    | some d =>
      rw [hd] at h
      dsimp only at h
      rcases List.mem_singleton.mp h with rfl
      exact Or.inr (Or.inl ⟨d, rfl, rfl⟩)
  · cases hp : truthyStr o.path with
    | none =>
      rw [hp] at h
      simp at h
    | some p =>
      rw [hp] at h
      dsimp only at h
      rcases List.mem_singleton.mp h with rfl
      exact Or.inr (Or.inr (Or.inl ⟨p, rfl, rfl⟩))
  · cases hde : o.expires with
    | none =>
      rw [hde] at h
      simp at h
    | some e =>
      rw [hde] at h
      dsimp only at h
      rcases List.mem_singleton.mp h with rfl
      exact Or.inr (Or.inr (Or.inr (Or.inl ⟨e, rfl, rfl⟩)))
  · by_cases hb : truthyBool o.httpOnly
    · rw [if_pos hb] at h
      rcases List.mem_singleton.mp h with rfl
      exact Or.inr (Or.inr (Or.inr (Or.inr (Or.inl rfl))))
    · rw [if_neg hb] at h
      simp at h
  · by_cases hb : truthyBool o.secure
    · rw [if_pos hb] at h
      rcases List.mem_singleton.mp h with rfl
      exact Or.inr (Or.inr (Or.inr (Or.inr (Or.inr (Or.inl rfl)))))
    · rw [if_neg hb] at h
      simp at h
  · cases hss : o.sameSite with
    | none =>
      rw [hss] at h
      simp at h
    | some ss =>
      rw [hss] at h
      dsimp only at h
      rcases List.mem_singleton.mp h with rfl
      exact Or.inr (Or.inr (Or.inr (Or.inr (Or.inr (Or.inr (Or.inl ⟨ss, rfl, rfl⟩))))))
  · by_cases hb : truthyBool o.partitioned
    · rw [if_pos hb] at h
      rcases List.mem_singleton.mp h with rfl
      exact Or.inr (Or.inr (Or.inr (Or.inr (Or.inr (Or.inr (Or.inr rfl))))))
    · rw [if_neg hb] at h
      simp at h

/-- Every attribute chunk is `;`-free and harmless for a key `n` that is not
one of the five attribute names. -/
theorem specAttr_props (o : CookieOptions) {n : Str}
    (hdom : ∀ c ∈ o.domain.getD [], c ≠ ';' ∧ c ≠ '%')
    (hpath : ∀ c ∈ o.path.getD [], c ≠ ';' ∧ c ≠ '%')
    (hexp : ∀ c ∈ (o.expires.map JSDate.utcString).getD [], c ≠ ';' ∧ c ≠ '%')
    (hnA : ¬(n = nMaxAge ∨ n = nDomain ∨ n = nPath ∨ n = nExpires ∨ n = nSameSite)) :
    ∀ a ∈ specAttrList o, (∀ c ∈ ' ' :: a, c ≠ ';') ∧ ChunkOK n (' ' :: a) := by
  intro a ha
  rcases specAttr_cases o ha with ⟨q, _, rfl⟩ | ⟨d, hd, rfl⟩ | ⟨p, hp, rfl⟩ |
    ⟨e, he, rfl⟩ | rfl | rfl | ⟨ss, _, rfl⟩ | rfl
  · have hdig := natToDec_chars (Int.floor q).toNat
    constructor
    · intro c hc
      rcases List.mem_cons.mp hc with rfl | hc
      · decide
      rcases List.mem_append.mp hc with hc | hc
      · have hm : ∀ c ∈ nMaxAge, c ≠ ';' := by decide
        exact hm c hc
      rcases List.mem_cons.mp hc with rfl | hc
      · decide
      · exact digit_ne_semi (hdig c hc)
    · exact chunkOK_attr (by decide) (fun h2 => hnA (Or.inl h2.symm))
        (fun c hc => digit_ne_pct (hdig c hc))
  · have hd2 := truthyStr_some hd
    rw [hd2] at hdom
    constructor
    · intro c hc
      rcases List.mem_cons.mp hc with rfl | hc
      · decide
      rcases List.mem_append.mp hc with hc | hc
      · have hm : ∀ c ∈ nDomain, c ≠ ';' := by decide
        exact hm c hc
      rcases List.mem_cons.mp hc with rfl | hc
      · decide
      · exact (hdom c hc).1
    · exact chunkOK_attr (by decide) (fun h2 => hnA (Or.inr (Or.inl h2.symm)))
        (fun c hc => (hdom c hc).2)
  · have hp2 := truthyStr_some hp
    rw [hp2] at hpath
    constructor
    · intro c hc
      rcases List.mem_cons.mp hc with rfl | hc
      · decide
      rcases List.mem_append.mp hc with hc | hc
      · have hm : ∀ c ∈ nPath, c ≠ ';' := by decide
        exact hm c hc
      rcases List.mem_cons.mp hc with rfl | hc
      · decide
      · exact (hpath c hc).1
    · exact chunkOK_attr (by decide) (fun h2 => hnA (Or.inr (Or.inr (Or.inl h2.symm))))
        (fun c hc => (hpath c hc).2)
  · rw [he] at hexp
    simp only [Option.map_some', Option.getD_some] at hexp
    constructor
    · intro c hc
      rcases List.mem_cons.mp hc with rfl | hc
      · decide
      rcases List.mem_append.mp hc with hc | hc
      · have hm : ∀ c ∈ nExpires, c ≠ ';' := by decide
        exact hm c hc
      rcases List.mem_cons.mp hc with rfl | hc
      · decide
      · exact (hexp c hc).1
    · exact chunkOK_attr (by decide)
        (fun h2 => hnA (Or.inr (Or.inr (Or.inr (Or.inl h2.symm)))))
        (fun c hc => (hexp c hc).2)
  · constructor
    · have hm : ∀ c ∈ ' ' :: wHttpOnly, c ≠ ';' := by decide
      exact hm
    · exact chunkOK_flag (by decide)
  · constructor
    · have hm : ∀ c ∈ ' ' :: wSecure, c ≠ ';' := by decide
      exact hm
    · exact chunkOK_flag (by decide)
  · have hrender : ∀ c ∈ ss.render, c ≠ ';' ∧ c ≠ '%' := by
      cases ss <;> decide
    constructor
    · intro c hc
      rcases List.mem_cons.mp hc with rfl | hc
      · decide
      rcases List.mem_append.mp hc with hc | hc
      · have hm : ∀ c ∈ nSameSite, c ≠ ';' := by decide
        exact hm c hc
      rcases List.mem_cons.mp hc with rfl | hc
      · decide
      · exact (hrender c hc).1
    · exact chunkOK_attr (by decide)
        (fun h2 => hnA (Or.inr (Or.inr (Or.inr (Or.inr h2.symm)))))
        (fun c hc => (hrender c hc).2)
  · constructor
    · have hm : ∀ c ∈ ' ' :: wPartitioned, c ≠ ';' := by decide
      exact hm
    · exact chunkOK_flag (by decide)

/-- No attribute chunk ends in JS whitespace (given that the string-valued
options do not end in whitespace), so the global `trim` never eats into the
serialized attributes. -/
theorem specAttr_last (o : CookieOptions)
    (hdomL : lastNotWs (o.domain.getD []) = true)
    (hpathL : lastNotWs (o.path.getD []) = true)
    (hexpL : lastNotWs ((o.expires.map JSDate.utcString).getD []) = true) :
    ∀ a ∈ specAttrList o, ∀ c, (';' :: ' ' :: a).getLast? = some c →
      jsWhitespace c = false := by
  intro a ha c hc
  rcases getLast_cons_cases hc with ⟨habs, _⟩ | hc2
  · cases habs
  clear hc
  rcases specAttr_cases o ha with ⟨q, _, rfl⟩ | ⟨d, hd, rfl⟩ | ⟨p, hp, rfl⟩ |
    ⟨e, he, rfl⟩ | rfl | rfl | ⟨ss, _, rfl⟩ | rfl
  · rcases getLast_cons_cases hc2 with ⟨hae, rfl⟩ | hc3
    · exact absurd hae (by simp [nMaxAge])
    · have hall : ∀ x ∈ nMaxAge ++ '=' :: natToDec (Int.floor q).toNat,
          jsWhitespace x = false := by
        intro x hx
        rcases List.mem_append.mp hx with hx | hx
        · have hm : ∀ x ∈ nMaxAge, jsWhitespace x = false := by decide
          exact hm x hx
        rcases List.mem_cons.mp hx with rfl | hx
        · decide
        · have hdig := natToDec_chars _ x hx
          exact digit_not_ws hdig.1 hdig.2
      exact hall c (getLast_mem hc3)
  · rcases getLast_cons_cases hc2 with ⟨hae, rfl⟩ | hc3
    · exact absurd hae (by simp [nDomain])
    rcases getLast_append_cases hc3 with ⟨habs2, _⟩ | hc4
    · cases habs2
    rcases getLast_cons_cases hc4 with ⟨_, rfl⟩ | hc5
    · decide
    · rw [truthyStr_some hd] at hdomL
      exact lastNotWs_spec hdomL c hc5
  · rcases getLast_cons_cases hc2 with ⟨hae, rfl⟩ | hc3
    · exact absurd hae (by simp [nPath])
    rcases getLast_append_cases hc3 with ⟨habs2, _⟩ | hc4
    · cases habs2
    rcases getLast_cons_cases hc4 with ⟨_, rfl⟩ | hc5
    · decide
    · rw [truthyStr_some hp] at hpathL
      exact lastNotWs_spec hpathL c hc5
  · rcases getLast_cons_cases hc2 with ⟨hae, rfl⟩ | hc3
    · exact absurd hae (by simp [nExpires])
    rcases getLast_append_cases hc3 with ⟨habs2, _⟩ | hc4
    · cases habs2
    rcases getLast_cons_cases hc4 with ⟨_, rfl⟩ | hc5
    · decide
    · rw [he] at hexpL
      simp only [Option.map_some', Option.getD_some] at hexpL
      exact lastNotWs_spec hexpL c hc5
  · rcases getLast_cons_cases hc2 with ⟨hae, rfl⟩ | hc3
    · exact absurd hae (by decide)
    · have hm : ∀ x ∈ wHttpOnly, jsWhitespace x = false := by decide
      exact hm c (getLast_mem hc3)
  · rcases getLast_cons_cases hc2 with ⟨hae, rfl⟩ | hc3
    · exact absurd hae (by decide)
    · have hm : ∀ x ∈ wSecure, jsWhitespace x = false := by decide
      exact hm c (getLast_mem hc3)
  · rcases getLast_cons_cases hc2 with ⟨hae, rfl⟩ | hc3
    · exact absurd hae (by simp [nSameSite])
    · have hm : ∀ x ∈ nSameSite ++ '=' :: ss.render, jsWhitespace x = false := by
        cases ss <;> decide
      exact hm c (getLast_mem hc3)
  · rcases getLast_cons_cases hc2 with ⟨hae, rfl⟩ | hc3
    · exact absurd hae (by decide)
    · have hm : ∀ x ∈ wPartitioned, jsWhitespace x = false := by decide
      exact hm c (getLast_mem hc3)

theorem flatMap_semicolon_chunks (l : List Str) :
    l.flatMap (fun a => ';' :: ' ' :: a) =
      (l.map (fun a => ' ' :: a)).flatMap (fun ch => ';' :: ch) := by
  induction l with
  | nil => rfl
  | cons a t ih => simp only [List.flatMap_cons, List.map_cons, ih]

/-- C6: the plain round trip — for every token-class name `n` that is not one
of the five attribute names, every value `v` (percent-encoded on serialize and
percent-decoded on parse, so any value survives), and any options whose
string-valued attributes are free of `;` and `%` and do not end in whitespace,
`parse(serialize(n, v, o))` maps `n` back to `v`. -/
theorem C6_plain_round_trip (n v : Str) (o : CookieOptions)
    (hn : validName n = true)
    (hnA : ¬(n = nMaxAge ∨ n = nDomain ∨ n = nPath ∨ n = nExpires ∨ n = nSameSite))
    (hdom : ∀ c ∈ o.domain.getD [], c ≠ ';' ∧ c ≠ '%')
    (hpath : ∀ c ∈ o.path.getD [], c ≠ ';' ∧ c ≠ '%')
    (hexp : ∀ c ∈ (o.expires.map JSDate.utcString).getD [], c ≠ ';' ∧ c ≠ '%')
    (hdomL : lastNotWs (o.domain.getD []) = true)
    (hpathL : lastNotWs (o.path.getD []) = true)
    (hexpL : lastNotWs ((o.expires.map JSDate.utcString).getD []) = true) :
    (parse (serialize n v o) Option.none).map (fun m => lookupE m n) =
      some (some v) := by
  have hprops := specAttr_props o hdom hpath hexp hnA
  have hlast := specAttr_last o hdomL hpathL hexpL
  have hnc := validName_all hn
  have hnWs : ∀ c ∈ n, jsWhitespace c = false :=
    fun c hc => validNameChar_not_ws (hnc c hc)
  have hnEq : ∀ c ∈ n, c ≠ '=' := fun c hc => validNameChar_ne_eq (hnc c hc)
  have hnSemi : ∀ c ∈ n, c ≠ ';' := fun c hc => validNameChar_ne_semi (hnc c hc)
  have henc := encodeURI_chars v
  obtain ⟨n0, nrest, rfl⟩ : ∃ n0 nrest, n = n0 :: nrest := by
    cases n with
    | nil => exact absurd hn (by decide)
    | cons n0 nrest => exact ⟨n0, nrest, rfl⟩
  rw [serialize_eq_spec]
  have hform : serializeSpec (n0 :: nrest) v o =
      ((n0 :: nrest) ++ '=' :: encodeURIComponent v) ++
        (specAttrList o).flatMap (fun a => ';' :: ' ' :: a) := by
    unfold serializeSpec
    simp [List.append_assoc]
  rw [hform]
  unfold parse
  have hrevp0 : ∃ z t,
      ((n0 :: nrest) ++ '=' :: encodeURIComponent v : Str).reverse = z :: t ∧
      jsWhitespace z = false := by
    cases hre : (encodeURIComponent v).reverse with
    | nil =>
      have he0 : encodeURIComponent v = [] := by
        have := congrArg List.reverse hre
        rwa [List.reverse_reverse] at this
      refine ⟨'=', (n0 :: nrest).reverse, ?_, by decide⟩
      rw [he0]
      simp
    | cons z t =>
      have hz : z ∈ encodeURIComponent v := by
        have : z ∈ (encodeURIComponent v).reverse := by
          rw [hre]
          exact List.mem_cons_self _ _
        rwa [List.mem_reverse] at this
      refine ⟨z, t ++ '=' :: (n0 :: nrest).reverse, ?_, (henc z hz).2.1⟩
      rw [show ((n0 :: nrest) ++ '=' :: encodeURIComponent v : Str).reverse =
        (encodeURIComponent v).reverse ++ '=' :: (n0 :: nrest).reverse from by simp]
      rw [hre]
      rfl
  obtain ⟨z, t, hrev, hzws⟩ := hrevp0
  rw [trim_append_p0 ⟨nrest ++ '=' :: encodeURIComponent v, by simp⟩
    (hnWs n0 (List.mem_cons_self _ _)) hrev hzws]
  rw [trimEnd_eq_self (getLast_flatMap_pred _ (fun a ha c hc => hlast a ha c hc))]
  rw [flatMap_semicolon_chunks]
  have hp0semi : ∀ c ∈ (n0 :: nrest) ++ '=' :: encodeURIComponent v, c ≠ ';' := by
    intro c hc
    rcases List.mem_append.mp hc with hc | hc
    · exact hnSemi c hc
    rcases List.mem_cons.mp hc with rfl | hc
    · decide
    · exact (henc c hc).2.2.1
  have hchsemi : ∀ ch ∈ (specAttrList o).map (fun a => ' ' :: a), ∀ c ∈ ch, c ≠ ';' := by
    intro ch hch c hc
    rw [List.mem_map] at hch
    obtain ⟨a, ha, rfl⟩ := hch
    exact (hprops a ha).1 c hc
  rw [splitOnChar_segments hp0semi hchsemi]
  rw [List.foldlM_cons]
  have hq : ¬((encodeURIComponent v).head? = some '"' ∧
      (encodeURIComponent v).getLast? = some '"') := by
    rintro ⟨h1, _⟩
    cases he : encodeURIComponent v with
    | nil =>
      rw [he] at h1
      cases h1
    | cons e0 et =>
      rw [he] at h1
      have he0 : e0 = '"' := Option.some.inj h1
      have hmem : e0 ∈ encodeURIComponent v := by
        rw [he]
        exact List.mem_cons_self _ _
      exact (henc e0 hmem).2.2.2 he0
  have hval : validValue (encodeURIComponent v) = true := by
    rw [validValue, List.all_eq_true]
    exact fun c hc => (henc c hc).1
  rw [parsePair_pair Option.none [] hn (Or.inl rfl) hnEq hnWs
    (fun c hc => (henc c hc).2.1) hq hval (decodeURI_encodeURI v)]
  simp only [Option.bind_eq_bind, Option.some_bind]
  have hok : ∀ ch ∈ (specAttrList o).map (fun a => ' ' :: a), ChunkOK (n0 :: nrest) ch := by
    intro ch hch
    rw [List.mem_map] at hch
    obtain ⟨a, ha, rfl⟩ := hch
    exact (hprops a ha).2
  obtain ⟨m', hfold, hpres⟩ := foldlM_chunks _ hok (insertE [] (n0 :: nrest) v)
  rw [hfold]
  simp only [Option.map_some']
  rw [hpres, lookupE_insertE_self]

/-- C6 witness: a value needing percent-encoding and options with domain,
path, expires, HttpOnly, Secure, SameSite and Partitioned all present. -/
theorem C6_plain_round_trip_witness :
    (parse (serialize ['i', 'd'] ['m', '/']
        { domain := some ['e', 'x', '.', 'c', 'o'], path := some ['/', 'a'],
          expires := some { utcString := ['G', 'M', 'T'] },
          httpOnly := some true, secure := some true,
          sameSite := some SameSiteOpt.strict, partitioned := some true })
       Option.none).map (fun m => lookupE m ['i', 'd']) = some (some ['m', '/']) :=
  C6_plain_round_trip ['i', 'd'] ['m', '/']
    { domain := some ['e', 'x', '.', 'c', 'o'], path := some ['/', 'a'],
      expires := some { utcString := ['G', 'M', 'T'] },
      httpOnly := some true, secure := some true,
      sameSite := some SameSiteOpt.strict, partitioned := some true }
    (by decide) (by decide) (by decide) (by decide) (by decide) (by decide)
    (by decide) (by decide)

end Kukkii
